import Mathlib

/-!
Verification development for the asset-tree engine of the `egen` static
site generator (source file `src/assets.go`).

The Go code is shallowly embedded:

* Go byte strings are Lean `String`s (Go compares strings bytewise; for
  UTF-8 encoded strings the bytewise order coincides with the
  code-point order, so the lexicographic order on `String.data` is the
  faithful model).  Byte slices (`[]byte`) are `List Nat`.
* The fragments of the Go standard library that `assets.go` leans on
  (`strings.Split`, `strings.TrimPrefix`, `strings.TrimSuffix`,
  `filepath.Ext`, `path.Clean`, `path.Join`, string `<`) are embedded
  as executable Lean functions below, mirroring their documented
  lexical algorithms.
* Pointer-mutable tree nodes are modelled twice, at the two levels the
  properties live at: an inductive "functional" view (`ATree`) where a
  node owns the list of its children, used for traversal, lookup and
  publishing, and an explicit heap view (`Heap`, further below) where
  `parent`/`firstChild`/`next`/`previous` are node identifiers, used
  for the link-surgery of `removeFromTree`.
* Filesystem access is a parameter: directory listings, file reads and
  image probes are supplied as functions, and writes performed by the
  publishing pipeline are accumulated in an explicit output record.
  The content hasher (`crypto/md5`) and the image resizer are external
  collaborators and are taken as function parameters as well.
-/

namespace Egen

/-! ### Embedded Go string primitives -/

/-- Go string comparison `a < b`: lexicographic on the bytes, modelled
as the lexicographic order on the character lists. -/
def charsLess : List Char → List Char → Bool
  | [], [] => false
  | [], _ :: _ => true
  | _ :: _, [] => false
  | a :: as, b :: bs => if a < b then true else if b < a then false else charsLess as bs

/-- Go `c.name < n2.name` (what `sort.StringSlice.Less(0, 1)` computes
in `addChild`). -/
def strLess (a b : String) : Bool := charsLess a.data b.data

/-- Helper for `splitSlash`: the accumulator holds the current segment
reversed. -/
def splitSlashAux (acc : List Char) : List Char → List String
  | [] => [String.mk acc.reverse]
  | c :: rest =>
      if c = '/' then String.mk acc.reverse :: splitSlashAux [] rest
      else splitSlashAux (c :: acc) rest

/-- Go `strings.Split(s, "/")`.  Always returns at least one segment;
`splitSlash "" = [""]`. -/
def splitSlash (s : String) : List String := splitSlashAux [] s.data

/-- Go `strings.Join(elems, "/")`. -/
def joinSlash : List String → String
  | [] => ""
  | [s] => s
  | s :: rest => s ++ "/" ++ joinSlash rest

/-- Removes `pre` from the front of `s` when it is a prefix
(otherwise `none`). -/
def dropPre : List Char → List Char → Option (List Char)
  | s, [] => some s
  | [], _ :: _ => none
  | c :: cs, p :: ps => if c = p then dropPre cs ps else none

/-- Go `strings.TrimPrefix(s, pre)`. -/
def trimPre (s pre : String) : String :=
  match dropPre s.data pre.data with
  | some rest => String.mk rest
  | none => s

/-- Go `strings.TrimSuffix(s, suf)`. -/
def trimSuf (s suf : String) : String :=
  match dropPre s.data.reverse suf.data.reverse with
  | some rest => String.mk rest.reverse
  | none => s

/-- Helper for `filepathExt`: scans the reversed character list; `acc`
holds the characters already passed, in forward order. -/
def extFromRev (acc : List Char) : List Char → List Char
  | [] => []
  | c :: rest =>
      if c = '/' then []
      else if c = '.' then '.' :: acc
      else extFromRev (c :: acc) rest

/-- Go `filepath.Ext(p)`: the suffix starting at the last dot of the
final path element, empty if there is none. -/
def filepathExt (p : String) : String := String.mk (extFromRev [] p.data.reverse)

/-- Whether a Go path is rooted (starts with the byte `/`). -/
def isRooted (p : String) : Bool :=
  match p.data with
  | [] => false
  | c0 :: _ => c0 = '/'

/-- One step of the lexical cleaning loop of Go `path.Clean`: pushes a
segment onto the (reversed) output stack. -/
def cleanPush (rooted : Bool) (out : List String) (seg : String) : List String :=
  if seg = "" ∨ seg = "." then out
  else if seg = ".." then
    match out with
    | [] => if rooted then [] else [".."]
    | o :: os => if o = ".." then ".." :: o :: os else os
  else seg :: out

/-- Go `path.Clean`, modelled at the level of `/`-separated segments
(the Go implementation runs the same algorithm over a byte buffer). -/
def pathClean (p : String) : String :=
  if p = "" then "."
  else
    let rooted := isRooted p
    let out := ((splitSlash p).foldl (cleanPush rooted) []).reverse
    let body := joinSlash out
    if rooted then "/" ++ body
    else if body = "" then "." else body

/-- Go `path.Join`: drops leading empty elements, joins the rest with
`/` and cleans the result; all-empty input gives `""`. -/
def pathJoin (elems : List String) : String :=
  match elems.dropWhile (fun e => e = "") with
  | [] => ""
  | e :: rest => pathClean (joinSlash (e :: rest))

/-! ### The node model (`assetsTreeNode`), functional view -/

/-- `assetsTreeNodeType` with its three values `FILENODE`, `DIRNODE`,
`IMGNODE`. -/
inductive NodeType where
  | FILENODE
  | DIRNODE
  | IMGNODE
deriving DecidableEq

/-- `assetsTreeNodeImgSize`: one size variant of an image node.  Widths
are Go `int`s. -/
structure ImgSize where
  original : Bool
  width : Int
  processed : Bool
deriving DecidableEq

/-- The scalar fields of `assetsTreeNode` (every field except the tree
links). -/
structure NodeData where
  t : NodeType
  name : String
  path : String
  content : Option (List Nat)
  sizes : List ImgSize
  processedPath : String
  processedRelPath : String
deriving DecidableEq

/-- A node together with the subtree it owns: the functional view of a
`*assetsTreeNode` and its `firstChild`/`next` chain. -/
inductive ATree where
  | mk (data : NodeData) (children : List ATree)

def ATree.data : ATree → NodeData
  | .mk d _ => d

def ATree.children : ATree → List ATree
  | .mk _ cs => cs

def ATree.t (n : ATree) : NodeType := n.data.t

def ATree.name (n : ATree) : String := n.data.name

def ATree.path (n : ATree) : String := n.data.path

def ATree.content (n : ATree) : Option (List Nat) := n.data.content

def ATree.sizes (n : ATree) : List ImgSize := n.data.sizes

/-! ### The traversal engine (`traverse` / `traverseRec`) -/

/-- `traverseStatus` with its three values. -/
inductive TraverseStatus where
  | next
  | skipChildren
  | terminate
deriving DecidableEq

/-- A visitor (`assetsTreeNodeTraverseFn`).  Go visitors are closures
that may mutate captured variables, so the embedded visitor threads an
explicit state `σ` alongside the Go return value `(traverseStatus,
error)`. -/
def TraverseFn (σ ε : Type) : Type := σ → ATree → σ × TraverseStatus × Option ε

mutual

/-- `traverseRec` from `src/assets.go`: visit `n`, then walk its
children, recursing only into `DIRNODE` children. -/
def traverseRec (fn : TraverseFn σ ε) (s : σ) : ATree → σ × TraverseStatus × Option ε
  | ATree.mk d cs =>
      let r := fn s (ATree.mk d cs)
      if r.2.2.isSome ∨ r.2.1 = TraverseStatus.terminate then (r.1, TraverseStatus.terminate, r.2.2)
      else if r.2.1 = TraverseStatus.skipChildren then (r.1, TraverseStatus.skipChildren, none)
      else traverseChildren fn r.1 cs

/-- The child loop of `traverseRec` (`for c != nil { ... }`). -/
def traverseChildren (fn : TraverseFn σ ε) (s : σ) : List ATree → σ × TraverseStatus × Option ε
  | [] => (s, TraverseStatus.next, none)
  | c :: rest =>
      match c.t with
      | NodeType.DIRNODE =>
          let r := traverseRec fn s c
          if r.2.2.isSome ∨ r.2.1 = TraverseStatus.terminate then
            (r.1, TraverseStatus.terminate, r.2.2)
          else traverseChildren fn r.1 rest
      | _ =>
          let r := fn s c
          if r.2.2.isSome then (r.1, TraverseStatus.terminate, r.2.2)
          else
            match r.2.1 with
            | TraverseStatus.skipChildren => (r.1, TraverseStatus.skipChildren, none)
            | TraverseStatus.terminate => (r.1, TraverseStatus.terminate, none)
            | TraverseStatus.next => traverseChildren fn r.1 rest

end

/-- `traverse`: the public entry point drops the status. -/
def traverse (fn : TraverseFn σ ε) (s : σ) (n : ATree) : σ × Option ε :=
  let r := traverseRec fn s n
  (r.1, r.2.2)

/-! ### Concrete traversal scenario of claim C1 -/

/-- A childless node (file or image). -/
def leafN (t : NodeType) (nm : String) : ATree := ATree.mk ⟨t, nm, "", none, [], "", ""⟩ []

/-- A directory node with the given children. -/
def dirN (nm : String) (cs : List ATree) : ATree :=
  ATree.mk ⟨NodeType.DIRNODE, nm, "", none, [], "", ""⟩ cs

/-- The tree `dir1{dir2{file1}, dir3{file2}, dir4{file3}}` from the
spec's traversal scenario. -/
def cTree : ATree :=
  dirN ("dir1")
    [dirN ("dir2") [leafN NodeType.FILENODE ("file1")],
     dirN ("dir3") [leafN NodeType.FILENODE ("file2")],
     dirN ("dir4") [leafN NodeType.FILENODE ("file3")]]

/-- A visitor that records the names of the visited nodes in order and
answers with the signal `dec` chooses for each name. -/
def collectFn (dec : String → TraverseStatus) : TraverseFn (List String) Unit :=
  fun s n => (s ++ [n.name], dec n.name, none)

/-- Signal `st` at the node called `nm`, `next` everywhere else. -/
def signalAt (nm : String) (st : TraverseStatus) : String → TraverseStatus :=
  fun x => if x = nm then st else TraverseStatus.next

/-! ### addSizes -/

/-- `findOriginalSize`: the first size marked `original` (Go returns
`nil` when there is none, modelled as `none`). -/
def findOriginalSize (sizes : List ImgSize) : Option ImgSize :=
  sizes.find? (fun sz => sz.original)

/-- `findSize`: the first size of the given width. -/
def findSize (sizes : List ImgSize) (w : Int) : Option ImgSize :=
  sizes.find? (fun sz => sz.width = w)

/-- The `for _, width := range widths` loop of `addSizes`.  Both inner
`return` statements leave the whole loop, which the two non-recursive
branches mirror. -/
def addSizesLoop (ow : Int) (sizes : List ImgSize) : List Int → List ImgSize
  | [] => sizes
  | w :: rest =>
      if ow < w then sizes
      else if sizes.any (fun sz => sz.width = w) then sizes
      else addSizesLoop ow (sizes ++ [⟨false, w, false⟩]) rest

/-- `addSizes` on a node.  Go dereferences the result of
`findOriginalSize()` unconditionally, so a node without an original
size crashes; the embedding leaves such a node unchanged (the case is
unreachable for well-formed image nodes). -/
def addSizes (n : ATree) (widths : List Int) : ATree :=
  match findOriginalSize n.sizes with
  | none => n
  | some o => ATree.mk { n.data with sizes := addSizesLoop o.width n.sizes widths } n.children

/-- A concrete image node whose original width is 1280. -/
def img1280 : ATree :=
  ATree.mk ⟨NodeType.IMGNODE, "i.png", "p/i.png", none, [⟨true, 1280, false⟩], "", ""⟩ []

/-! ### Relative-path lookup -/

/-- The walk of `findByRelPath` after splitting the reference: `segs`
is the remaining segment list (`segments[i:]`), `cs` the sibling list
currently scanned (`n2` and its `next` chain). -/
def findSegs (segs : List String) (cs : List ATree) : Option ATree :=
  match segs, cs with
  | [], _ => none
  | _ :: _, [] => none
  | s :: rest, c :: cs2 =>
      if c.name = s then
        if rest = [] then some c else findSegs rest c.children
      else findSegs (s :: rest) cs2
termination_by (segs.length, sizeOf cs)

/-- `findByRelPath`: split the reference on `/` and walk from the
node's first child. -/
def findByRelPath (n : ATree) (relPath : String) : Option ATree :=
  findSegs (splitSlash relPath) n.children

/-- `findByRelPathInGATOrPAT`: resolve a reference against the global
tree (leading `/`, stripped) or the post tree (anything else,
verbatim), also reporting which tree was consulted. -/
def findByRelPathInGATOrPAT (gat pat : Option ATree) (relPath : String) :
    Option ATree × Bool :=
  match relPath.data with
  | [] => (none, false)
  | c0 :: _ =>
      if c0 = '/' then
        match gat with
        | none => (none, false)
        | some g => (findByRelPath g (trimPre relPath ("/")), false)
      else
        match pat with
        | none => (none, true)
        | some p => (findByRelPath p relPath, true)

/-- Modelled from claim C7's wording: node `n` is reachable from `t`
via the nonempty segment path `segs`, choosing at each level some child
whose name equals the segment. -/
inductive ReachesVia : ATree → List String → ATree → Prop where
  | last (t c : ATree) (hc : c ∈ t.children) : ReachesVia t [c.name] c
  | step (t c : ATree) (hc : c ∈ t.children) (segs : List String) (n : ATree)
      (h : ReachesVia c segs n) : ReachesVia t (c.name :: segs) n

/-- Sibling names are pairwise distinct throughout the tree. -/
inductive UniqNames : ATree → Prop where
  | mk (t : ATree) (h1 : (t.children.map ATree.name).Nodup)
      (h2 : ∀ c ∈ t.children, UniqNames c) : UniqNames t

/-- A tree with two siblings named `a` — buildable with two `addChild`
calls (which keep non-decreasing, not strictly increasing, name order):
the file `a` comes first, the directory `a` holding `b` second. -/
def dupTree : ATree :=
  dirN ("r") [leafN NodeType.FILENODE ("a"), dirN ("a") [leafN NodeType.FILENODE ("b")]]

/-- A small duplicate-free tree used as witness data. -/
def twoLevelTree : ATree := dirN ("r") [dirN ("a") [leafN NodeType.FILENODE ("b")]]

/-! ### getContent -/

/-- The filesystem as seen by `getContent`: the backing files plus a
running count of `os.ReadFile` calls performed. -/
structure FsReadState where
  files : String → Option (List Nat)
  reads : Nat

/-- `getContent`: panics (modelled as an error) on a directory node,
returns the overridden `content` when set, and otherwise performs a
fresh `os.ReadFile(n.path)` — the Go code never writes the read bytes
back into `n.content`, so every call in the unoverridden case touches
the filesystem. -/
def getContent (n : ATree) (fs : FsReadState) :
    Except String (List Nat) × FsReadState :=
  if n.t ≠ NodeType.FILENODE ∧ n.t ≠ NodeType.IMGNODE then
    (Except.error ("panic: not a file or img node"), fs)
  else
    match n.content with
    | some c => (Except.ok c, fs)
    | none =>
        match fs.files n.path with
        | some bs => (Except.ok bs, { fs with reads := fs.reads + 1 })
        | none => (Except.error ("read error"), { fs with reads := fs.reads + 1 })

/-- A concrete unoverridden file node. -/
def plainFile : ATree := ATree.mk ⟨NodeType.FILENODE, "f", "a/f", none, [], "", ""⟩ []

/-- A concrete filesystem state backing `plainFile`. -/
def fsState0 : FsReadState :=
  ⟨fun p => if p = "a/f" then some [1, 2] else none, 0⟩

/-! ### addChild -/

/-- The visitor state of `addChild`'s insertion scan: whether the
starting node's own visitor call has happened (Go tests `n2 == n` by
pointer identity; the scan only ever visits the starting node and its
direct children, so a flag is an exact model), plus how many children
have been recorded as `previousNode`. -/
structure AddScan where
  seenRoot : Bool
  prev : Nat
deriving DecidableEq

/-- The closure passed to `n.traverse` inside `addChild`: skip the
starting node, terminate at the first child whose name sorts after the
new name, otherwise advance `previousNode` and skip directory
children's subtrees. -/
def addChildScanFn (cname : String) : TraverseFn AddScan Unit :=
  fun s n2 =>
    if s.seenRoot = false then ({ s with seenRoot := true }, TraverseStatus.next, none)
    else if strLess cname n2.name then (s, TraverseStatus.terminate, none)
    else ({ s with prev := s.prev + 1 },
      if n2.t = NodeType.DIRNODE then TraverseStatus.skipChildren else TraverseStatus.next,
      none)

/-- `addChild`: create the child (its `path` is `path.Join` of the
parent's path and the name), locate the insertion point with the
traversal scan (`previousNode = nil` is insertion at index 0, otherwise
immediately after the `previousNode`-th child), and splice it in.  The
final `c.traverse` recomputing paths only visits `c` itself, since a
fresh child has no children, and recomputes the value already set. -/
def addChild (n : ATree) (t : NodeType) (nm : String) : ATree :=
  let c : ATree := ATree.mk ⟨t, nm, pathJoin [n.path, nm], none, [], "", ""⟩ []
  if n.children.isEmpty then ATree.mk n.data [c]
  else
    let k := (traverseRec (addChildScanFn nm) ⟨false, 0⟩ n).1.prev
    ATree.mk n.data (n.children.insertIdx k c)

/-- Non-decreasing sibling name order in the sense of Go's string
comparison: no sibling's name is less than that of an earlier one. -/
def namesSorted (cs : List ATree) : Prop :=
  List.Pairwise (fun a b => strLess b.name a.name = false) cs

instance namesSortedDecidable (cs : List ATree) : Decidable (namesSorted cs) := by
  unfold namesSorted
  infer_instance

/-! ### Tree ingestion (`generateAssetsTree`) -/

/-- Whether `pat` occurs as a substring (what an unanchored literal
regexp match computes). -/
def hasSubstr (pat : List Char) : List Char → Bool
  | [] => (dropPre ([] : List Char) pat).isSome
  | c :: rest => (dropPre (c :: rest) pat).isSome || hasSubstr pat rest

/-- Whether the character list starts with `.jpg`, `.jpeg` or `.png`. -/
def imgDotStart (cs : List Char) : Bool :=
  (dropPre cs (".jpg".data)).isSome || (dropPre cs (".jpeg".data)).isSome ||
    (dropPre cs (".png".data)).isSome

/-- Scanner for `imgNameMatches`: looks for a position with at least
one preceding character where an image extension starts. -/
def imgScan : List Char → Bool
  | [] => false
  | _ :: rest => imgDotStart rest || imgScan rest

/-- The unanchored regexp `.+\.(jpg|jpeg|png)` (`imgNodeNameRegExp`):
somewhere in the name, a nonempty prefix is followed by `.jpg`, `.jpeg`
or `.png`. -/
def imgNameMatches (nm : String) : Bool := imgScan nm.data

/-- The name an entry is matched against: directories get a trailing
`/`. -/
def entryMatchName (e : String × Bool) : String :=
  if e.2 then e.1 ++ "/" else e.1

/-- Ingestion errors: `fs.ErrNotExist`-like errors (tolerated at the
top level) versus everything else. -/
inductive IngErr where
  | notExist
  | other (msg : String)
deriving DecidableEq

/-- The filesystem as seen by ingestion: `os.ReadDir` listings (name
and directory flag per entry, in the host's listing order) and the
image-header probe `imgDimensions`. -/
structure IngestFs where
  readDir : String → Except IngErr (List (String × Bool))
  imgDim : String → Except IngErr Int

mutual

/-- `generateAssetsTreeRec`, fuelled (the Go recursion terminates
because the filesystem is finite; any fuel at least the directory depth
computes the same tree).  Returns the children built before a failure
together with the failure, mirroring the Go code's in-place mutation of
the root node: entries already linked stay linked when a later entry
fails. -/
def generateAssetsTreeRec (fs : IngestFs) (ignore : List (String → Bool)) :
    Nat → String → List ATree × Option IngErr
  | 0, _ => ([], some (IngErr.other ("out of fuel")))
  | fuel + 1, dirPath =>
      match fs.readDir dirPath with
      | Except.error e => ([], some e)
      | Except.ok entries => genEntries fs ignore fuel dirPath entries

/-- The `fileInfosLoop` of `generateAssetsTreeRec`: ignore matching
entries (default `\.gitkeep` rule first, then the caller's rules),
probe image names, recurse into directories, and collect the rest as
plain files.  A failing entry is dropped (the Go code returns before
linking it) and ends the loop. -/
def genEntries (fs : IngestFs) (ignore : List (String → Bool)) :
    Nat → String → List (String × Bool) → List ATree × Option IngErr
  | _, _, [] => ([], none)
  | fuel, dirPath, e :: rest =>
      if hasSubstr (".gitkeep".data) (entryMatchName e).data ||
          ignore.any (fun rx => rx (entryMatchName e)) then
        genEntries fs ignore fuel dirPath rest
      else if imgNameMatches e.1 then
        match fs.imgDim (pathJoin [dirPath, e.1]) with
        | Except.error err => ([], some err)
        | Except.ok w =>
            let r := genEntries fs ignore fuel dirPath rest
            (ATree.mk ⟨NodeType.IMGNODE, e.1, pathJoin [dirPath, e.1], none,
              [⟨true, w, false⟩], "", ""⟩ [] :: r.1, r.2)
      else if e.2 then
        match generateAssetsTreeRec fs ignore fuel (pathJoin [dirPath, e.1]) with
        | (_, some err) => ([], some err)
        | (cs, none) =>
            let r := genEntries fs ignore fuel dirPath rest
            (ATree.mk ⟨NodeType.DIRNODE, e.1, pathJoin [dirPath, e.1], none,
              [], "", ""⟩ cs :: r.1, r.2)
      else
        let r := genEntries fs ignore fuel dirPath rest
        (ATree.mk ⟨NodeType.FILENODE, e.1, pathJoin [dirPath, e.1], none,
          [], "", ""⟩ [] :: r.1, r.2)

end

/-- `generateAssetsTree`: build the tree rooted at `path.Clean` of the
assets path; an `fs.ErrNotExist` anywhere is tolerated (the partial
tree is returned), any other failure aborts. -/
def generateAssetsTree (fs : IngestFs) (ignore : List (String → Bool)) (fuel : Nat)
    (assetsPath : String) : Except IngErr ATree :=
  let rootPath := pathClean assetsPath
  let r := generateAssetsTreeRec fs ignore fuel rootPath
  match r.2 with
  | some IngErr.notExist =>
      Except.ok (ATree.mk ⟨NodeType.DIRNODE, "assets", rootPath, none, [], "", ""⟩ r.1)
  | some e => Except.error e
  | none =>
      Except.ok (ATree.mk ⟨NodeType.DIRNODE, "assets", rootPath, none, [], "", ""⟩ r.1)

/-- A filesystem with no directories at all. -/
def ingFsMissing : IngestFs :=
  ⟨fun _ => Except.error IngErr.notExist, fun _ => Except.error (IngErr.other ("no img"))⟩

/-- A filesystem whose root is unreadable. -/
def ingFsUnreadable : IngestFs :=
  ⟨fun _ => Except.error (IngErr.other ("permission denied")),
   fun _ => Except.error (IngErr.other ("no img"))⟩

/-- A filesystem whose root holds one image file with a corrupt
header. -/
def ingFsBadImg : IngestFs :=
  ⟨fun p => if p = "a" then Except.ok [("i.jpg", false)] else Except.error IngErr.notExist,
   fun _ => Except.error (IngErr.other ("bad header"))⟩

/-! ### The publishing pipeline (`process` / `processSizes`) -/

/-- The output side of publishing: directories created and files
written (path and bytes), in order. -/
structure OutFs where
  dirs : List String
  files : List (String × List Nat)
deriving DecidableEq

/-- The collaborators of the publishing pipeline: the backing files
(for `getContent`'s unoverridden read path), the content hasher
(`hex.EncodeToString(md5.Sum(bytes))`), and the image resizer
(`resizeImg(width, path)`). -/
structure PubEnv where
  fs : String → Option (List Nat)
  digest : List Nat → String
  resize : Int → String → Option (List Nat)

/-- The read path of `getContent` (its node-type guard holds at every
call site inside `process`, which dispatches on the node type first). -/
def contentOf (fs : String → Option (List Nat)) (d : NodeData) : Option (List Nat) :=
  match d.content with
  | some c => some c
  | none => fs d.path

/-- Decimal digit character. -/
def digitChar (n : Nat) : Char := Char.ofNat (48 + n)

/-- Fuelled decimal expansion (any fuel at least the value computes the
digits). -/
def natDigits : Nat → Nat → List Char
  | 0, n => [digitChar n]
  | fuel + 1, n => if n < 10 then [digitChar n] else natDigits fuel (n / 10) ++ [digitChar (n % 10)]

/-- Go `strconv.Itoa`. -/
def itoa (i : Int) : String :=
  match i with
  | Int.ofNat n => String.mk (natDigits n n)
  | Int.negSucc m => "-" ++ String.mk (natDigits (m + 1) (m + 1))

/-- `generateSizeProcessedPath`: `<processed path>/<width><ext>`, where
the extension comes from the node's name. -/
def generateSizeProcessedPath (rel : Bool) (processedRelPath processedPath nm : String)
    (sz : ImgSize) : String :=
  if rel then pathJoin [processedRelPath, itoa sz.width ++ filepathExt nm]
  else pathJoin [processedPath, itoa sz.width ++ filepathExt nm]

/-- The loop of `processSizes` over the size slice: skip
already-processed sizes, write `<width><ext>` into the processed
directory (original sizes reuse the content bytes, the rest are
resized), and mark each written size processed.  `none` models the
aborting error paths (file creation, resize, write); the claims
concern successful publishes. -/
def processSizesLoop (env : PubEnv) (content : List Nat) (nodePath processedPath nm : String) :
    List ImgSize → Option (List ImgSize × List (String × List Nat))
  | [] => some ([], [])
  | sz :: rest =>
      if sz.processed then
        match processSizesLoop env content nodePath processedPath nm rest with
        | none => none
        | some (rs, ws) => some (sz :: rs, ws)
      else
        let sizeFilePath := generateSizeProcessedPath false "" processedPath nm sz
        match (if sz.original then some content else env.resize sz.width nodePath) with
        | none => none
        | some bs =>
            match processSizesLoop env content nodePath processedPath nm rest with
            | none => none
            | some (rs, ws) =>
                some ({ sz with processed := true } :: rs, (sizeFilePath, bs) :: ws)

/-- The visitor body of `process` (the `switch n2.t`), acting on one
node's scalar fields and the accumulated output.  `rootPath` is the
path of the node `process` started at. -/
def processData (env : PubEnv) (rootPath outDirPath : String) (out : OutFs)
    (d : NodeData) : Option (NodeData × OutFs) :=
  let pathWithoutRoot := trimPre d.path (rootPath ++ "/")
  match d.t with
  | NodeType.IMGNODE =>
      match contentOf env.fs d with
      | none => none
      | some nodeContent =>
          let md5Hash := env.digest nodeContent
          let prp := pathJoin [pathWithoutRoot, "..", md5Hash]
          let pp := pathJoin [outDirPath, prp]
          match processSizesLoop env nodeContent d.path pp d.name d.sizes with
          | none => none
          | some (sizes2, writes) =>
              some ({ d with sizes := sizes2, processedPath := pp, processedRelPath := prp },
                    { dirs := out.dirs ++ [pp], files := out.files ++ writes })
  | NodeType.FILENODE =>
      let ext := filepathExt pathWithoutRoot
      let pathWithoutRootWithoutExt := trimSuf pathWithoutRoot ext
      match contentOf env.fs d with
      | none => none
      | some nodeContent =>
          let md5Hash := env.digest nodeContent
          let prp := pathWithoutRootWithoutExt ++ "-" ++ md5Hash ++ ext
          let fileOutPath := pathJoin [outDirPath, prp]
          some ({ d with processedPath := fileOutPath, processedRelPath := prp },
                { out with files := out.files ++ [(fileOutPath, nodeContent)] })
  | NodeType.DIRNODE =>
      let pp := pathJoin [outDirPath, pathWithoutRoot]
      some ({ d with processedPath := pp, processedRelPath := pathWithoutRoot },
            { out with dirs := out.dirs ++ [pp] })

mutual

/-- `process`'s traversal on one subtree: visit the node itself (unless
it is the skipped root), then its children; the visitor returns `next`
on success, so the walk covers the full pre-order and a failure aborts
everything. -/
def processNode (env : PubEnv) (rootPath outDirPath : String) (skipSelf : Bool)
    (out : OutFs) : ATree → Option (ATree × OutFs)
  | ATree.mk d cs =>
      if skipSelf then
        match processChildren env rootPath outDirPath out cs with
        | none => none
        | some (cs2, out2) => some (ATree.mk d cs2, out2)
      else
        match processData env rootPath outDirPath out d with
        | none => none
        | some (d2, out2) =>
            match processChildren env rootPath outDirPath out2 cs with
            | none => none
            | some (cs2, out3) => some (ATree.mk d2 cs2, out3)

/-- The child loop of `process`'s traversal: directory children are
recursed into, file and image children get the visitor only. -/
def processChildren (env : PubEnv) (rootPath outDirPath : String) (out : OutFs) :
    List ATree → Option (List ATree × OutFs)
  | [] => some ([], out)
  | c :: rest =>
      match c.t with
      | NodeType.DIRNODE =>
          match processNode env rootPath outDirPath false out c with
          | none => none
          | some (c2, out2) =>
              match processChildren env rootPath outDirPath out2 rest with
              | none => none
              | some (rest2, out3) => some (c2 :: rest2, out3)
      | _ =>
          match processData env rootPath outDirPath out c.data with
          | none => none
          | some (d2, out2) =>
              match processChildren env rootPath outDirPath out2 rest with
              | none => none
              | some (rest2, out3) => some (ATree.mk d2 c.children :: rest2, out3)

end

/-- `process(outDirPath, processRoot)` on the tree rooted at `n`. -/
def process (env : PubEnv) (outDirPath : String) (processRoot : Bool) (n : ATree) :
    Option (ATree × OutFs) :=
  processNode env n.path outDirPath (!processRoot) ⟨[], []⟩ n

/-- The node-data part of the visitor, which does not depend on the
accumulated output. -/
def processDataF (env : PubEnv) (rootPath outDirPath : String) (d : NodeData) :
    Option NodeData :=
  (processData env rootPath outDirPath ⟨[], []⟩ d).map Prod.fst

/-- How a successful `process` rewrites a forest: every node's scalar
data is rewritten by the visitor and the shape is preserved. -/
inductive ProcForest (env : PubEnv) (rootPath outDirPath : String) :
    List ATree → List ATree → Prop where
  | nil : ProcForest env rootPath outDirPath [] []
  | consDir (d d2 : NodeData) (cs cs2 rest rest2 : List ATree)
      (ht : d.t = NodeType.DIRNODE)
      (hd : processDataF env rootPath outDirPath d = some d2)
      (hcs : ProcForest env rootPath outDirPath cs cs2)
      (hrest : ProcForest env rootPath outDirPath rest rest2) :
      ProcForest env rootPath outDirPath (ATree.mk d cs :: rest) (ATree.mk d2 cs2 :: rest2)
  | consLeaf (d d2 : NodeData) (cs rest rest2 : List ATree)
      (ht : d.t ≠ NodeType.DIRNODE)
      (hd : processDataF env rootPath outDirPath d = some d2)
      (hrest : ProcForest env rootPath outDirPath rest rest2) :
      ProcForest env rootPath outDirPath (ATree.mk d cs :: rest) (ATree.mk d2 cs :: rest2)

/-- Honest single-segment names: nonempty, not a path special, no
separator. -/
def simpleSeg (s : String) : Prop :=
  s ≠ "" ∧ s ≠ "." ∧ s ≠ ".." ∧ ('/' : Char) ∉ s.data

instance simpleSegDecidable (s : String) : Decidable (simpleSeg s) := by
  unfold simpleSeg
  infer_instance

/-- A concrete publishing environment: no backing files, a two-valued
digest, a constant resizer. -/
def pubEnv0 : PubEnv :=
  ⟨fun _ => none,
   fun bs => if bs = [1] then "aaaa" else "bbbb",
   fun _ _ => some [0]⟩

/-- A concrete overridden file node under root path `r`. -/
def fileNode0 : ATree :=
  ATree.mk ⟨NodeType.FILENODE, "f.txt", "r/f.txt", some [1], [], "", ""⟩ []

/-- `fileNode0` after publishing into `out`. -/
def fileNode0p : ATree :=
  ATree.mk ⟨NodeType.FILENODE, "f.txt", "r/f.txt", some [1], [], "out/f-aaaa.txt",
    "f-aaaa.txt"⟩ []

/-- A concrete overridden image node under root path `r`, one
unmaterialized original size. -/
def imgData0 : NodeData :=
  ⟨NodeType.IMGNODE, "i.png", "r/d/i.png", some [2], [⟨true, 100, false⟩], "", ""⟩

/-- A concrete one-file tree rooted at `r`. -/
def tree0 : ATree := ATree.mk ⟨NodeType.DIRNODE, "assets", "r", none, [], "", ""⟩ [fileNode0]

/-! ### The heap view and `removeFromTree` -/

/-- A node record as it sits on the Go heap: the scalar fields plus the
four link fields as optional node identifiers (`nil` pointers are
`none`). -/
structure HNode where
  t : NodeType
  name : String
  path : String
  content : Option (List Nat)
  sizes : List ImgSize
  processedPath : String
  processedRelPath : String
  parent : Option Nat
  firstChild : Option Nat
  next : Option Nat
  previous : Option Nat
deriving DecidableEq

/-- The heap: a node record per identifier. -/
def Heap : Type := Nat → HNode

/-- Update one node's record in place. -/
def hupd (h : Heap) (i : Nat) (f : HNode → HNode) : Heap :=
  fun j => if j = i then f (h j) else h j

/-- Blank the `path` of every node in the identifier list. -/
def blankOn (s : List Nat) (h : Heap) : Heap :=
  fun i => if i ∈ s then { h i with path := "" } else h i

mutual

/-- The `traverse` run by `removeFromTree` on the heap, specialized to
its path-blanking visitor (which always answers `next`): visit the
node, then its child chain. -/
def blankRec : Nat → Heap → Nat → Heap
  | fuel, h, x =>
      let h1 := hupd h x (fun nd => { nd with path := "" })
      blankChain fuel h1 ((h1 x).firstChild)
termination_by fuel _ _ => 2 * fuel + 1

/-- The child loop of the blanking traverse: `cNext` is read before
visiting the child, and only directory children are recursed into.
The fuel only bounds the number of steps (the Go heap walk terminates
on the acyclic heaps the program builds; any fuel at least the subtree
size computes the whole walk). -/
def blankChain : Nat → Heap → Option Nat → Heap
  | 0, h, _ => h
  | _, h, none => h
  | fuel + 1, h, some c =>
      let cNext := (h c).next
      if (h c).t = NodeType.DIRNODE then
        blankChain fuel (blankRec fuel h c) cNext
      else
        blankChain fuel (hupd h c (fun nd => { nd with path := "" })) cNext
termination_by fuel _ _ => 2 * fuel

end

/-- `removeFromTree` on the heap: a node with no parent is left alone;
otherwise unlink it from the parent's child list and the sibling chain,
blank the `path` of its whole subtree when it is a directory, and clear
its own `parent`, `previous`, `next` and `path`. -/
def removeFromTree (fuel : Nat) (h : Heap) (x : Nat) : Heap :=
  match (h x).parent with
  | none => h
  | some p =>
      let h1 :=
        match (h x).previous with
        | none =>
            match (h x).next with
            | some nx =>
                hupd (hupd h p (fun nd => { nd with firstChild := some nx }))
                  nx (fun nd => { nd with previous := none })
            | none => hupd h p (fun nd => { nd with firstChild := none })
        | some pv =>
            let h2 := hupd h pv (fun nd => { nd with next := (h x).next })
            match (h x).next with
            | some nx => hupd h2 nx (fun nd => { nd with previous := some pv })
            | none => h2
      let h3 :=
        if (h x).t = NodeType.DIRNODE then
          blankRec fuel h1 x
        else h1
      hupd h3 x (fun nd =>
        { nd with parent := none, previous := none, next := none, path := "" })

/-- A subtree shape: node identifiers arranged as a tree. -/
inductive ITree where
  | mk (id : Nat) (children : List ITree)

/-- Identifiers of a forest, preorder. -/
def idsOfF : List ITree → List Nat
  | [] => []
  | ITree.mk i cs :: ts => i :: (idsOfF cs ++ idsOfF ts)

/-- A heap encodes a sibling chain: starting at `cur`, whose previous
link is `prev`, the chain lists exactly the trees of `cs`, all with
parent `p`; non-directory nodes have no first child, and child chains
are encoded recursively. -/
inductive EncChain : Heap → Nat → Option Nat → Option Nat → List ITree → Prop where
  | nil (h : Heap) (p : Nat) (prev : Option Nat) : EncChain h p prev none []
  | cons {h : Heap} {p : Nat} {prev : Option Nat} (c : Nat) (ccs rest : List ITree)
      (hpar : (h c).parent = some p)
      (hprev : (h c).previous = prev)
      (hleaf : (h c).t ≠ NodeType.DIRNODE → (h c).firstChild = none)
      (hkids : EncChain h c none ((h c).firstChild) ccs)
      (hrest : EncChain h p (some c) ((h c).next) rest) :
      EncChain h p prev (some c) (ITree.mk c ccs :: rest)

/-- The sibling-surgery step of `removeFromTree` (its `h1`), as a
standalone function of the removed node `x` and its parent `p`. -/
def unlinkStep (h : Heap) (x p : Nat) : Heap :=
  match (h x).previous with
  | none =>
      match (h x).next with
      | some nx =>
          hupd (hupd h p (fun nd => { nd with firstChild := some nx }))
            nx (fun nd => { nd with previous := none })
      | none => hupd h p (fun nd => { nd with firstChild := none })
  | some pv =>
      let h2 := hupd h pv (fun nd => { nd with next := (h x).next })
      match (h x).next with
      | some nx => hupd h2 nx (fun nd => { nd with previous := some pv })
      | none => h2

/-- A concrete four-node heap: directory 0 with children 1 (a directory
holding file 3) and 2 (a file). -/
def heap0 : Heap :=
  fun i =>
    if i = 0 then
      ⟨NodeType.DIRNODE, "r", "r", none, [], "", "", none, some 1, none, none⟩
    else if i = 1 then
      ⟨NodeType.DIRNODE, "d", "r/d", none, [], "", "", some 0, some 3, some 2, none⟩
    else if i = 2 then
      ⟨NodeType.FILENODE, "f", "r/f", none, [], "", "", some 0, none, none, some 1⟩
    else
      ⟨NodeType.FILENODE, "g", "r/d/g", none, [], "", "", some 1, none, none, none⟩

/-- `imgData0` after publishing into `out`. -/
def imgData0p : NodeData :=
  ⟨NodeType.IMGNODE, "i.png", "r/d/i.png", some [2], [⟨true, 100, true⟩], "out/d/bbbb",
    "d/bbbb"⟩

/-! ## Theorems -/

/-- C1: the depth-first pre-order traversal obeys the asymmetric
propagation rule.  (1) A `DIRNODE` child's recursive visit returning
`skipChildren` is absorbed: the loop proceeds to the next sibling with
the visitor state the recursion produced.  (2) A `DIRNODE` child's
recursive visit returning `terminate` (or an error) propagates.  (3) A
`FILENODE`/`IMGNODE` child whose visitor call returns `skipChildren`
stops the current level, which returns `skipChildren` upward.  (4) In
the concrete tree `dir1{dir2{file1}, dir3{file2}, dir4{file3}}`,
`skipChildren` at `dir3` yields visit order
`dir1, dir2, file1, dir3, dir4, file3`, while `skipChildren` at the
leaf `file2` is passed up to `dir1`'s loop (which absorbs it) and every
node is still visited because `file2` has no remaining siblings. -/
theorem c1_traversal_propagation :
    (∀ (σ ε : Type) (fn : TraverseFn σ ε) (s s' : σ) (c : ATree) (rest : List ATree),
        c.t = NodeType.DIRNODE →
        traverseRec fn s c = (s', TraverseStatus.skipChildren, (none : Option ε)) →
        traverseChildren fn s (c :: rest) = traverseChildren fn s' rest) ∧
    (∀ (σ ε : Type) (fn : TraverseFn σ ε) (s s' : σ) (c : ATree) (rest : List ATree)
        (e : Option ε),
        c.t = NodeType.DIRNODE →
        traverseRec fn s c = (s', TraverseStatus.terminate, e) →
        traverseChildren fn s (c :: rest) = (s', TraverseStatus.terminate, e)) ∧
    (∀ (σ ε : Type) (fn : TraverseFn σ ε) (s s' : σ) (c : ATree) (rest : List ATree),
        c.t ≠ NodeType.DIRNODE →
        fn s c = (s', TraverseStatus.skipChildren, (none : Option ε)) →
        traverseChildren fn s (c :: rest) = (s', TraverseStatus.skipChildren, none)) ∧
    (traverseRec (collectFn (signalAt ("dir3") TraverseStatus.skipChildren)) [] cTree).1 =
      ["dir1", "dir2", "file1", "dir3", "dir4", "file3"] ∧
    (traverseRec (collectFn (signalAt ("file2") TraverseStatus.skipChildren)) [] cTree).1 =
      ["dir1", "dir2", "file1", "dir3", "file2", "dir4", "file3"] := by
  refine ⟨?_, ?_, ?_, by rfl, by rfl⟩
  · intro σ ε fn s s' c rest hdir hrec
    simp [traverseChildren, hdir, hrec]
  · intro σ ε fn s s' c rest e hdir hrec
    rcases e with _ | e <;> simp [traverseChildren, hdir, hrec]
  · intro σ ε fn s s' c rest hdir hfn
    match htc : c.t, hdir with
    | NodeType.FILENODE, _ => simp [traverseChildren, htc, hfn]
    | NodeType.IMGNODE, _ => simp [traverseChildren, htc, hfn]

/-- Witness for C1: the three conditional conjuncts applied at concrete
inputs. -/
theorem c1_traversal_propagation_witness :
    (traverseChildren (collectFn (signalAt ("dir3") TraverseStatus.skipChildren)) []
        (dirN ("dir3") [leafN NodeType.FILENODE ("file2")] :: [leafN NodeType.FILENODE ("f")]) =
      traverseChildren (collectFn (signalAt ("dir3") TraverseStatus.skipChildren)) ["dir3"]
        [leafN NodeType.FILENODE ("f")]) ∧
    (traverseChildren (collectFn (signalAt ("dir3") TraverseStatus.terminate)) []
        (dirN ("dir3") [] :: [leafN NodeType.FILENODE ("f")]) =
      (["dir3"], TraverseStatus.terminate, (none : Option Unit))) ∧
    (traverseChildren (collectFn (signalAt ("file2") TraverseStatus.skipChildren)) []
        (leafN NodeType.FILENODE ("file2") :: [leafN NodeType.FILENODE ("f")]) =
      (["file2"], TraverseStatus.skipChildren, (none : Option Unit))) := by
  refine ⟨?_, ?_, ?_⟩
  · exact c1_traversal_propagation.1 _ _ _ _ _ _ _ (by rfl) (by rfl)
  · exact c1_traversal_propagation.2.1 _ _ _ _ _ _ _ _ (by rfl) (by rfl)
  · exact c1_traversal_propagation.2.2.1 _ _ _ _ _ _ _ (by decide) (by rfl)

/-- C2 counterexample: with original width 1280, requesting
`[640, 640, 425]` never adds a variant for 425 even though 425 is
strictly smaller than 1280 and no variant of width 425 exists — the
duplicate 640 stops the whole loop, contradicting the claim that only
an oversized candidate causes the full early stop while a duplicate
merely fails to add. -/
theorem c2_addSizes_counterexample :
    (425 : Int) < 1280 ∧
    ((img1280.sizes.any (fun sz => sz.width = 425)) = false) ∧
    ((addSizes img1280 [640, 640, 425]).sizes.any (fun sz => sz.width = 425)) = false := by
  decide

/-- C2 amended: each candidate width is added as a new unmaterialized
variant unless a variant of that exact width already exists or the
candidate is not strictly smaller than the original width; processing
stops entirely — skipping all subsequent candidates — the first time a
candidate is oversized *or already has a variant of its width* (both
`return` statements leave the loop).  Every added variant is fresh,
unmaterialized, non-original and strictly smaller than the original
width.  The concrete request `[640, 425, 640, 1920]` against original
width 1280 adds exactly 640 and 425, each once. -/
theorem c2_addSizes_amended :
    (∀ (ow : Int) (sizes : List ImgSize) (w : Int) (rest : List Int),
        (ow < w ∨ sizes.any (fun sz => sz.width = w) = true) →
        addSizesLoop ow sizes (w :: rest) = sizes) ∧
    (∀ (ow : Int) (sizes : List ImgSize) (w : Int) (rest : List Int),
        ¬ ow < w → sizes.any (fun sz => sz.width = w) = false →
        addSizesLoop ow sizes (w :: rest) =
          addSizesLoop ow (sizes ++ [⟨false, w, false⟩]) rest) ∧
    (∀ (n : ATree) (ws : List Int) (o : ImgSize), findOriginalSize n.sizes = some o →
        ∀ sz ∈ (addSizes n ws).sizes, sz ∈ n.sizes ∨
          (sz.original = false ∧ sz.processed = false ∧ sz.width ∈ ws ∧ sz.width < o.width ∧
            n.sizes.any (fun s2 => s2.width = sz.width) = false)) ∧
    (addSizes img1280 [640, 425, 640, 1920]).sizes =
      [⟨true, 1280, false⟩, ⟨false, 640, false⟩, ⟨false, 425, false⟩] := by
  have hloop : ∀ (ow : Int) (ws : List Int) (sizes : List ImgSize) (sz : ImgSize),
      sz ∈ addSizesLoop ow sizes ws → sz ∈ sizes ∨
        (sz.original = false ∧ sz.processed = false ∧ sz.width ∈ ws ∧ ¬ ow < sz.width ∧
          sizes.any (fun s2 => s2.width = sz.width) = false) := by
    intro ow ws
    induction ws with
    | nil => intro sizes sz h; exact Or.inl h
    | cons w rest ih =>
        intro sizes sz h
        by_cases h1 : ow < w
        · simp [addSizesLoop, h1] at h; exact Or.inl h
        · by_cases h2 : sizes.any (fun s2 => s2.width = w) = true
          · simp [addSizesLoop, h1, h2] at h; exact Or.inl h
          · simp only [addSizesLoop, if_neg h1, h2, if_neg] at h
            rcases ih _ _ h with hin | ⟨ho, hp, hw, hlt, hfresh⟩
            · rcases List.mem_append.1 hin with hin | hin
              · exact Or.inl hin
              · simp at hin
                subst hin
                exact Or.inr ⟨rfl, rfl, by simp, h1, by simpa using h2⟩
            · refine Or.inr ⟨ho, hp, by simp [hw], hlt, ?_⟩
              simp only [List.any_append, Bool.or_eq_false_iff] at hfresh
              exact hfresh.1
  refine ⟨?_, ?_, ?_, by decide⟩
  · intro ow sizes w rest h
    rcases h with h | h
    · simp [addSizesLoop, h]
    · by_cases h1 : ow < w <;> simp [addSizesLoop, h1, h]
  · intro ow sizes w rest h1 h2
    simp [addSizesLoop, h1, h2]
  · intro n ws o ho sz hsz
    have hmemo : o ∈ n.sizes ∧ o.original = true := by
      constructor
      · exact List.mem_of_find?_eq_some ho
      · exact List.find?_some ho
    simp only [addSizes, ho] at hsz
    rcases hloop o.width ws n.sizes sz hsz with hin | ⟨h1, h2, h3, h4, h5⟩
    · exact Or.inl hin
    · refine Or.inr ⟨h1, h2, h3, ?_, h5⟩
      rcases lt_or_eq_of_le (not_lt.1 h4) with hlt | heq
      · exact hlt
      · exfalso
        have : n.sizes.any (fun s2 => s2.width = sz.width) = true := by
          simp only [List.any_eq_true]
          exact ⟨o, hmemo.1, by simp [heq]⟩
        simp [this] at h5

/-- Strings rebuild from their character lists. -/
theorem strMk_data (s : String) : String.mk s.data = s := by
  cases s
  rfl

/-- Splitting a slash-free character list yields a single segment. -/
theorem splitSlashAux_no_slash (cs : List Char) (acc : List Char)
    (h : ∀ c ∈ cs, c ≠ '/') :
    splitSlashAux acc cs = [String.mk (acc.reverse ++ cs)] := by
  induction cs generalizing acc with
  | nil => simp [splitSlashAux]
  | cons c rest ih =>
      have hc : c ≠ '/' := h c (by simp)
      rw [splitSlashAux, if_neg hc, ih (c :: acc) (fun x hx => h x (by simp [hx]))]
      simp

/-- Splitting breaks at the first slash after a slash-free block. -/
theorem splitSlashAux_break (xs ys : List Char) (acc : List Char)
    (h : ∀ c ∈ xs, c ≠ '/') :
    splitSlashAux acc (xs ++ '/' :: ys) =
      String.mk (acc.reverse ++ xs) :: splitSlashAux [] ys := by
  induction xs generalizing acc with
  | nil => simp [splitSlashAux]
  | cons c rest ih =>
      have hc : c ≠ '/' := h c (by simp)
      rw [List.cons_append, splitSlashAux, if_neg hc,
        ih (c :: acc) (fun x hx => h x (by simp [hx]))]
      simp

/-- Splitting is a left inverse of joining for nonempty lists of
slash-free segments. -/
theorem splitSlash_joinSlash (segs : List String) (h0 : segs ≠ [])
    (h : ∀ s ∈ segs, ('/' : Char) ∉ s.data) : splitSlash (joinSlash segs) = segs := by
  induction segs with
  | nil => cases h0 rfl
  | cons s rest ih =>
      cases rest with
      | nil =>
          show splitSlash (joinSlash [s]) = [s]
          have hs : ∀ c ∈ s.data, c ≠ '/' := by
            intro c hc
            intro he
            exact h s (by simp) (he ▸ hc)
          rw [joinSlash, splitSlash, splitSlashAux_no_slash _ _ hs]
          simp [strMk_data]
      | cons s2 rest2 =>
          have hdata : (joinSlash (s :: s2 :: rest2)).data =
              s.data ++ '/' :: (joinSlash (s2 :: rest2)).data := by
            show (s ++ "/" ++ joinSlash (s2 :: rest2)).data = _
            simp [String.data_append]
          have hs : ∀ c ∈ s.data, c ≠ '/' := by
            intro c hc he
            exact h s (by simp) (he ▸ hc)
          rw [splitSlash, hdata, splitSlashAux_break _ _ _ hs]
          simp only [List.reverse_nil, List.nil_append, strMk_data]
          have := ih (by simp) (fun x hx => h x (by simp [hx]))
          rw [splitSlash] at this
          rw [this]

/-- A reachable node's segment path is nonempty. -/
theorem reachesVia_ne_nil {t : ATree} {segs : List String} {n : ATree}
    (h : ReachesVia t segs n) : segs ≠ [] := by
  cases h <;> simp

/-- Scanning a duplicate-free sibling list for a member's name finds
exactly that member. -/
theorem findSegs_scan (cs : List ATree) (c : ATree) (rest : List String)
    (hmem : c ∈ cs) (hnodup : (cs.map ATree.name).Nodup) :
    findSegs (c.name :: rest) cs =
      if rest = [] then some c else findSegs rest c.children := by
  induction cs with
  | nil => cases hmem
  | cons d cs2 ih =>
      rw [List.map_cons, List.nodup_cons] at hnodup
      by_cases hd : d.name = c.name
      · have hcd : c = d := by
          rcases List.mem_cons.1 hmem with h | h
          · exact h
          · exfalso
            exact hnodup.1 (hd ▸ List.mem_map_of_mem ATree.name h)
        subst hcd
        rw [findSegs, if_pos rfl]
      · have hmem2 : c ∈ cs2 := by
          rcases List.mem_cons.1 hmem with h | h
          · exact absurd (congrArg ATree.name h.symm) hd
          · exact h
        rw [findSegs, if_neg hd]
        exact ih hmem2 hnodup.2

/-- A single-segment lookup among siblings none of which carries the
segment name fails. -/
theorem findSegs_no_match (s : String) (cs : List ATree)
    (h : ∀ c ∈ cs, c.name ≠ s) : findSegs [s] cs = none := by
  induction cs with
  | nil => rw [findSegs]
  | cons d cs2 ih =>
      rw [findSegs, if_neg (h d (by simp))]
      exact ih (fun c hc => h c (by simp [hc]))

/-- The segment walk retrieves a reachable node when sibling names are
duplicate-free. -/
theorem findSegs_reaches : ∀ {t : ATree} {segs : List String} {n : ATree},
    ReachesVia t segs n → UniqNames t → findSegs segs t.children = some n := by
  intro t segs n hr
  induction hr with
  | last t c hc =>
      intro hu
      rcases hu with ⟨_, h1, _⟩
      rw [findSegs_scan t.children c [] hc h1]
      rfl
  | step t c hc segs n h ih =>
      intro hu
      rcases hu with ⟨_, h1, h2⟩
      rw [findSegs_scan t.children c segs hc h1, if_neg (reachesVia_ne_nil h)]
      exact ih (h2 c hc)

/-- Extending a reachable path with a segment that names no child of
the target fails, when sibling names are duplicate-free. -/
theorem findSegs_reaches_miss : ∀ {t : ATree} {segs : List String} {n : ATree},
    ReachesVia t segs n → UniqNames t →
    ∀ s2 : String, (∀ c ∈ n.children, c.name ≠ s2) →
    findSegs (segs ++ [s2]) t.children = none := by
  intro t segs n hr
  induction hr with
  | last t c hc =>
      intro hu s2 hmiss
      rcases hu with ⟨_, h1, _⟩
      have hsc := findSegs_scan t.children c [s2] hc h1
      rw [List.cons_append, List.nil_append, hsc, if_neg (by simp)]
      exact findSegs_no_match s2 c.children hmiss
  | step t c hc segs n h ih =>
      intro hu s2 hmiss
      rcases hu with ⟨_, h1, h2⟩
      rw [List.cons_append, findSegs_scan t.children c (segs ++ [s2]) hc h1,
        if_neg (by simp)]
      exact ih (h2 c hc) s2 hmiss

/-- Witness for C2's amended theorem: the conditional conjuncts applied
at concrete inputs. -/
theorem c2_addSizes_amended_witness :
    (addSizesLoop 1280 [⟨true, 1280, false⟩] [1920, 640] = [⟨true, 1280, false⟩]) ∧
    (addSizesLoop 1280 [⟨true, 1280, false⟩] [640] =
      addSizesLoop 1280 ([⟨true, 1280, false⟩] ++ [⟨false, 640, false⟩]) []) ∧
    (∀ sz ∈ (addSizes img1280 [640]).sizes, sz ∈ img1280.sizes ∨
      (sz.original = false ∧ sz.processed = false ∧ sz.width ∈ [(640 : Int)] ∧
        sz.width < (1280 : Int) ∧
        img1280.sizes.any (fun s2 => s2.width = sz.width) = false)) := by
  refine ⟨?_, ?_, ?_⟩
  · exact c2_addSizes_amended.1 1280 _ 1920 [640] (Or.inl (by decide))
  · exact c2_addSizes_amended.2.1 1280 _ 640 [] (by decide) (by decide)
  · have h := c2_addSizes_amended.2.2.1 img1280 [640] ⟨true, 1280, false⟩ (by decide)
    simpa using h

/-- C3: a reference whose first character is `/` is resolved strictly
within the global tree on the reference with the leading `/` stripped,
regardless of the local tree, with `searchedInPAT = false`; a reference
with any other first character is resolved strictly within the local
tree verbatim, never falling back to the global tree, with
`searchedInPAT = true`. -/
theorem c3_namespace_selection :
    ∀ (g p : ATree) (relPath : String),
      (isRooted relPath = true →
        findByRelPathInGATOrPAT (some g) (some p) relPath =
          (findByRelPath g (trimPre relPath ("/")), false)) ∧
      (relPath ≠ "" → isRooted relPath = false →
        findByRelPathInGATOrPAT (some g) (some p) relPath =
          (findByRelPath p relPath, true)) := by
  intro g p relPath
  constructor
  · intro hr
    rw [isRooted] at hr
    cases hcs : relPath.data with
    | nil => rw [hcs] at hr; simp at hr
    | cons c0 cs =>
        rw [hcs] at hr
        simp only [decide_eq_true_eq] at hr
        rw [findByRelPathInGATOrPAT.eq_def, hcs]
        simp [hr]
  · intro hne hr
    rw [isRooted] at hr
    cases hcs : relPath.data with
    | nil =>
        exfalso
        apply hne
        apply String.ext
        simp [hcs]
    | cons c0 cs =>
        rw [hcs] at hr
        simp only [decide_eq_false_iff_not] at hr
        rw [findByRelPathInGATOrPAT.eq_def, hcs]
        simp [hr]

/-- Witness for C3 at `"/a/b"` and `"a/b"` against singleton trees. -/
theorem c3_namespace_selection_witness :
    findByRelPathInGATOrPAT (some (dirN ("g") [])) (some (dirN ("p") [])) ("/a/b") =
      (findByRelPath (dirN ("g") []) (trimPre ("/a/b") ("/")), false) ∧
    findByRelPathInGATOrPAT (some (dirN ("g") [])) (some (dirN ("p") [])) ("a/b") =
      (findByRelPath (dirN ("p") []) ("a/b"), true) := by
  constructor
  · exact (c3_namespace_selection (dirN ("g") []) (dirN ("p") []) ("/a/b")).1 (by decide)
  · exact (c3_namespace_selection (dirN ("g") []) (dirN ("p") []) ("a/b")).2 (by decide) (by decide)

/-- C10: degenerate resolutions never consult a tree and never fault:
the empty reference yields `(none, false)`; a rooted reference with no
global tree yields `(none, false)`; a non-rooted reference with no
local tree yields `(none, true)` — the reported namespace always
follows the leading-character convention. -/
theorem c10_degenerate_resolution :
    (∀ (gat pat : Option ATree), findByRelPathInGATOrPAT gat pat ("") = (none, false)) ∧
    (∀ (pat : Option ATree) (relPath : String), isRooted relPath = true →
        findByRelPathInGATOrPAT none pat relPath = (none, false)) ∧
    (∀ (gat : Option ATree) (relPath : String), relPath ≠ "" → isRooted relPath = false →
        findByRelPathInGATOrPAT gat none relPath = (none, true)) := by
  refine ⟨?_, ?_, ?_⟩
  · intro gat pat
    rw [findByRelPathInGATOrPAT.eq_def]
  · intro pat relPath hr
    rw [isRooted] at hr
    cases hcs : relPath.data with
    | nil => rw [hcs] at hr; simp at hr
    | cons c0 cs =>
        rw [hcs] at hr
        simp only [decide_eq_true_eq] at hr
        rw [findByRelPathInGATOrPAT.eq_def, hcs]
        simp [hr]
  · intro gat relPath hne hr
    rw [isRooted] at hr
    cases hcs : relPath.data with
    | nil =>
        exfalso
        apply hne
        apply String.ext
        simp [hcs]
    | cons c0 cs =>
        rw [hcs] at hr
        simp only [decide_eq_false_iff_not] at hr
        rw [findByRelPathInGATOrPAT.eq_def, hcs]
        simp [hr]

/-- Witness for C10 at concrete degenerate inputs. -/
theorem c10_degenerate_resolution_witness :
    findByRelPathInGATOrPAT (some (dirN ("g") [])) (some (dirN ("p") [])) ("") =
      (none, false) ∧
    findByRelPathInGATOrPAT none (some (dirN ("p") [])) ("/a") = (none, false) ∧
    findByRelPathInGATOrPAT (some (dirN ("g") [])) none ("a") = (none, true) := by
  refine ⟨?_, ?_, ?_⟩
  · exact c10_degenerate_resolution.1 (some (dirN ("g") [])) (some (dirN ("p") []))
  · exact c10_degenerate_resolution.2.1 (some (dirN ("p") [])) ("/a") (by decide)
  · exact c10_degenerate_resolution.2.2 (some (dirN ("g") [])) ("a") (by decide) (by decide)

/-- C7 counterexample: in the tree `r{a(file), a(dir){b}}` — buildable
by `addChild` calls, whose order invariant is only *non-decreasing* —
the node `b` is reachable from the root via the segments `a, b`, yet
`findByRelPath` on `"a/b"` commits to the first sibling named `a` (the
childless file) and returns an absent result, refuting the claim for
arbitrary trees. -/
theorem c7_roundtrip_counterexample :
    ReachesVia dupTree ["a", "b"] (leafN NodeType.FILENODE ("b")) ∧
    joinSlash ["a", "b"] = "a/b" ∧
    findByRelPath dupTree ("a/b") = none := by
  refine ⟨?_, by rfl, by
    rw [findByRelPath]
    have hsp : splitSlash ("a/b") = ["a", "b"] := by rfl
    rw [hsp]
    simp [findSegs.eq_def, dupTree, dirN, leafN, ATree.children, ATree.name, ATree.data]⟩
  have h1 : ReachesVia (dirN ("a") [leafN NodeType.FILENODE ("b")]) ["b"]
      (leafN NodeType.FILENODE ("b")) := by
    have := ReachesVia.last (dirN ("a") [leafN NodeType.FILENODE ("b")])
      (leafN NodeType.FILENODE ("b")) (by simp [dirN, ATree.children])
    exact this
  have := ReachesVia.step dupTree (dirN ("a") [leafN NodeType.FILENODE ("b")])
    (by simp [dupTree, dirN, ATree.children]) ["b"] _ h1
  exact this

/-- C7 amended: provided sibling names are pairwise distinct throughout
the tree (which `addChild`'s non-decreasing order invariant does not
guarantee) and segment names contain no `/`, every node reachable from
the root via sibling-name segments is returned by `findByRelPath` on
the `/`-joined segment path, and extending such a path with one extra
segment naming no child of the target yields an absent result. -/
theorem c7_roundtrip_amended :
    (∀ (t : ATree) (segs : List String) (n : ATree),
        UniqNames t → ReachesVia t segs n → (∀ s ∈ segs, ('/' : Char) ∉ s.data) →
        findByRelPath t (joinSlash segs) = some n) ∧
    (∀ (t : ATree) (segs : List String) (n : ATree) (s2 : String),
        UniqNames t → ReachesVia t segs n → (∀ s ∈ segs, ('/' : Char) ∉ s.data) →
        ('/' : Char) ∉ s2.data → (∀ c ∈ n.children, c.name ≠ s2) →
        findByRelPath t (joinSlash (segs ++ [s2])) = none) := by
  constructor
  · intro t segs n hu hr hsl
    rw [findByRelPath, splitSlash_joinSlash segs (reachesVia_ne_nil hr) hsl]
    exact findSegs_reaches hr hu
  · intro t segs n s2 hu hr hsl hsl2 hmiss
    have hall : ∀ s ∈ segs ++ [s2], ('/' : Char) ∉ s.data := by
      intro s hs
      rcases List.mem_append.1 hs with h | h
      · exact hsl s h
      · simp at h
        subst h
        exact hsl2
    rw [findByRelPath, splitSlash_joinSlash (segs ++ [s2]) (by simp) hall]
    exact findSegs_reaches_miss hr hu s2 hmiss

/-- The witness tree `r{a{b}}` has duplicate-free sibling names. -/
theorem uniq_twoLevelTree : UniqNames twoLevelTree := by
  refine UniqNames.mk _ (by decide) ?_
  intro c hc
  simp only [twoLevelTree, dirN, ATree.children, List.mem_singleton] at hc
  subst hc
  refine UniqNames.mk _ (by decide) ?_
  intro c2 hc2
  simp only [ATree.children, List.mem_singleton] at hc2
  subst hc2
  exact UniqNames.mk _ (by decide) (by intro c3 hc3; simp [leafN, ATree.children] at hc3)

/-- In the witness tree, `b` is reachable via the segments `a, b`. -/
theorem reach_twoLevelTree :
    ReachesVia twoLevelTree ["a", "b"] (leafN NodeType.FILENODE ("b")) := by
  have h1 : ReachesVia (dirN ("a") [leafN NodeType.FILENODE ("b")]) ["b"]
      (leafN NodeType.FILENODE ("b")) :=
    ReachesVia.last (dirN ("a") [leafN NodeType.FILENODE ("b")])
      (leafN NodeType.FILENODE ("b")) (by simp [dirN, ATree.children])
  exact ReachesVia.step twoLevelTree (dirN ("a") [leafN NodeType.FILENODE ("b")])
    (by simp [twoLevelTree, dirN, ATree.children]) ["b"] _ h1

/-- Witness for C7's amended theorem on the tree `r{a{b}}`. -/
theorem c7_roundtrip_amended_witness :
    findByRelPath twoLevelTree (joinSlash ["a", "b"]) =
      some (leafN NodeType.FILENODE ("b")) ∧
    findByRelPath twoLevelTree (joinSlash (["a", "b"] ++ ["zzz"])) = none := by
  constructor
  · exact c7_roundtrip_amended.1 twoLevelTree ["a", "b"] (leafN NodeType.FILENODE ("b"))
      uniq_twoLevelTree reach_twoLevelTree (by decide)
  · exact c7_roundtrip_amended.2 twoLevelTree ["a", "b"] (leafN NodeType.FILENODE ("b"))
      ("zzz") uniq_twoLevelTree reach_twoLevelTree (by decide) (by decide)
      (by intro c hc; simp [leafN, ATree.children] at hc)

/-- C8 counterexample: for a file node whose content has not been
overridden, a second `getContent` query performs a second filesystem
read (the read count reaches 2), contradicting the claim that the
bytes are loaded and cached on first read so that a second query does
not re-read the backing file. -/
theorem c8_getContent_counterexample :
    plainFile.content = none ∧
    (getContent plainFile fsState0).1 = Except.ok [1, 2] ∧
    (getContent plainFile fsState0).2.reads = 1 ∧
    (getContent plainFile ((getContent plainFile fsState0).2)).2.reads = 2 := by
  refine ⟨rfl, rfl, rfl, rfl⟩

/-- C8 amended: when content has been overridden, the overridden bytes
are returned and the filesystem is untouched; when content has not
been overridden, *every* query — not only the first — performs one
fresh read of `sourcePath` and returns the bytes read (the code does
not cache; the node is not modified by the query). -/
theorem c8_getContent_amended :
    (∀ (n : ATree) (fs : FsReadState) (c : List Nat),
        (n.t = NodeType.FILENODE ∨ n.t = NodeType.IMGNODE) → n.content = some c →
        getContent n fs = (Except.ok c, fs)) ∧
    (∀ (n : ATree) (fs : FsReadState) (bs : List Nat),
        (n.t = NodeType.FILENODE ∨ n.t = NodeType.IMGNODE) → n.content = none →
        fs.files n.path = some bs →
        getContent n fs = (Except.ok bs, { fs with reads := fs.reads + 1 })) := by
  constructor
  · intro n fs c ht hc
    rcases ht with ht | ht <;> rw [getContent] <;> simp [ht, hc]
  · intro n fs bs ht hc hfs
    rcases ht with ht | ht <;> rw [getContent] <;> simp [ht, hc, hfs]

/-- Witness for C8's amended theorem: an overridden node and an
unoverridden node queried concretely. -/
theorem c8_getContent_amended_witness :
    getContent (ATree.mk ⟨NodeType.FILENODE, "f", "a/f", some [7], [], "", ""⟩ []) fsState0 =
      (Except.ok [7], fsState0) ∧
    getContent plainFile fsState0 =
      (Except.ok [1, 2], { fsState0 with reads := fsState0.reads + 1 }) := by
  constructor
  · exact c8_getContent_amended.1 _ fsState0 [7] (Or.inl (by rfl)) (by rfl)
  · exact c8_getContent_amended.2 plainFile fsState0 [1, 2] (Or.inl (by rfl)) (by rfl) (by rfl)

/-- Go's strict string order, char-list level: asymmetry. -/
theorem charsLess_asymm : ∀ (a b : List Char),
    charsLess a b = true → charsLess b a = false := by
  intro a
  induction a with
  | nil =>
      intro b h
      cases b with
      | nil => simp [charsLess] at h
      | cons y ys => rw [charsLess]
  | cons x xs ih =>
      intro b h
      cases b with
      | nil => simp [charsLess] at h
      | cons y ys =>
          rw [charsLess] at h ⊢
          by_cases hxy : x < y
          · rw [if_neg (lt_asymm hxy), if_pos hxy]
          · rw [if_neg hxy] at h
            by_cases hyx : y < x
            · rw [if_pos hyx] at h
              exact absurd h (by simp)
            · rw [if_neg hyx] at h
              rw [if_neg hyx, if_neg hxy]
              exact ih ys h

/-- Go's strict string order, char-list level: transitivity. -/
theorem charsLess_trans : ∀ (a b c : List Char),
    charsLess a b = true → charsLess b c = true → charsLess a c = true := by
  intro a
  induction a with
  | nil =>
      intro b c h1 h2
      cases b with
      | nil => simp [charsLess] at h1
      | cons y ys =>
          cases c with
          | nil => simp [charsLess] at h2
          | cons z zs => rw [charsLess]
  | cons x xs ih =>
      intro b c h1 h2
      cases b with
      | nil => simp [charsLess] at h1
      | cons y ys =>
          cases c with
          | nil => simp [charsLess] at h2
          | cons z zs =>
              rw [charsLess] at h1 h2 ⊢
              rcases lt_trichotomy x y with hxy | hxy | hxy
              · rcases lt_trichotomy y z with hyz | hyz | hyz
                · rw [if_pos (lt_trans hxy hyz)]
                · subst hyz
                  rw [if_pos hxy]
                · rw [if_neg (lt_asymm hyz), if_pos hyz] at h2
                  exact absurd h2 (by simp)
              · subst hxy
                rcases lt_trichotomy x z with hyz | hyz | hyz
                · rw [if_pos hyz]
                · subst hyz
                  simp only [lt_irrefl, if_false] at h1 h2 ⊢
                  exact ih ys zs h1 h2
                · rw [if_neg (lt_asymm hyz), if_pos hyz] at h2
                  exact absurd h2 (by simp)
              · rw [if_neg (lt_asymm hxy), if_pos hxy] at h1
                exact absurd h1 (by simp)

/-- The child loop of `addChild`'s insertion scan counts exactly the
leading children whose names do not sort after the new name. -/
theorem addChild_scan_children (nm : String) :
    ∀ (cs : List ATree) (k : Nat),
      (traverseChildren (addChildScanFn nm) ⟨true, k⟩ cs).1 =
        ⟨true, k + (cs.takeWhile (fun c => !strLess nm c.name)).length⟩ := by
  intro cs
  induction cs with
  | nil => intro k; simp [traverseChildren]
  | cons c rest ih =>
      intro k
      by_cases hl : strLess nm c.name
      · by_cases ht : c.t = NodeType.DIRNODE
        · simp [traverseChildren, ht, traverseRec.eq_def, addChildScanFn, hl,
            List.takeWhile_cons]
          cases c with
          | mk d ccs => simp [traverseRec, addChildScanFn, hl]
        · match htc : c.t, ht with
          | NodeType.FILENODE, _ =>
              simp [traverseChildren, htc, addChildScanFn, hl, List.takeWhile_cons]
          | NodeType.IMGNODE, _ =>
              simp [traverseChildren, htc, addChildScanFn, hl, List.takeWhile_cons]
      · by_cases ht : c.t = NodeType.DIRNODE
        · cases c with
          | mk d ccs =>
              simp only [ATree.t, ATree.data] at ht
              simp [traverseChildren, ht, traverseRec, addChildScanFn, hl, ATree.t,
                ATree.data, List.takeWhile_cons, ih (k + 1), Nat.add_assoc, Nat.add_comm 1]
        · match htc : c.t, ht with
          | NodeType.FILENODE, _ =>
              simp [traverseChildren, htc, addChildScanFn, hl, List.takeWhile_cons,
                ih (k + 1), Nat.add_assoc, Nat.add_comm 1]
          | NodeType.IMGNODE, _ =>
              simp [traverseChildren, htc, addChildScanFn, hl, List.takeWhile_cons,
                ih (k + 1), Nat.add_assoc, Nat.add_comm 1]

/-- The whole insertion scan of `addChild` lands on the boundary of the
leading block of children whose names do not sort after the new name. -/
theorem addChild_scan_prev (nm : String) (n : ATree) :
    (traverseRec (addChildScanFn nm) ⟨false, 0⟩ n).1 =
      ⟨true, (n.children.takeWhile (fun c => !strLess nm c.name)).length⟩ := by
  cases n with
  | mk d cs =>
      rw [traverseRec]
      simp only [addChildScanFn]
      simp [addChild_scan_children nm cs 0, ATree.children]

/-- Inserting at the `takeWhile` boundary splits the list there. -/
theorem insertIdx_takeWhile_boundary (p : ATree → Bool) (c : ATree) :
    ∀ cs : List ATree,
      cs.insertIdx (cs.takeWhile p).length c =
        cs.takeWhile p ++ c :: cs.dropWhile p := by
  intro cs
  induction cs with
  | nil => simp
  | cons d rest ih =>
      by_cases hd : p d
      · rw [List.takeWhile_cons, List.dropWhile_cons]
        simp only [hd, if_true, List.length_cons, List.insertIdx_succ_cons, ih]
        simp
      · rw [List.takeWhile_cons, List.dropWhile_cons]
        simp [hd]

/-- The children of a node after `addChild`: the new child lands
immediately before the first sibling whose name sorts after the new
name (or at the end, if none does). -/
theorem addChild_children_eq (n : ATree) (t : NodeType) (nm : String) :
    (addChild n t nm).children =
      n.children.takeWhile (fun c => !strLess nm c.name) ++
        ATree.mk ⟨t, nm, pathJoin [n.path, nm], none, [], "", ""⟩ [] ::
          n.children.dropWhile (fun c => !strLess nm c.name) := by
  cases n with
  | mk d cs =>
      by_cases hcs : cs.isEmpty = true
      · have hnil : cs = [] := List.isEmpty_iff.1 hcs
        subst hnil
        rw [addChild]
        simp [ATree.children]
      · have hcs2 : ((ATree.mk d cs).children.isEmpty = true) = False := by
          simp only [ATree.children]
          simp [hcs]
        rw [addChild]
        simp only [hcs2, if_false]
        rw [addChild_scan_prev nm (ATree.mk d cs)]
        simp only [ATree.children]
        exact insertIdx_takeWhile_boundary _ _ cs

/-- Inserting an element named `nm` at the scan boundary preserves
non-decreasing name order. -/
theorem sorted_insert_boundary (nm : String) (x : ATree) (hx : x.name = nm) :
    ∀ cs : List ATree, namesSorted cs →
      namesSorted (cs.takeWhile (fun c => !strLess nm c.name) ++
        x :: cs.dropWhile (fun c => !strLess nm c.name)) := by
  intro cs
  induction cs with
  | nil =>
      intro _
      simp [namesSorted]
  | cons d rest ih =>
      intro h
      rw [namesSorted, List.pairwise_cons] at h
      by_cases hd : (!strLess nm d.name) = true
      · rw [List.takeWhile_cons, List.dropWhile_cons]
        simp only [hd, if_true]
        rw [namesSorted, List.cons_append, List.pairwise_cons]
        constructor
        · intro y hy
          rcases List.mem_append.1 hy with hy | hy
          · exact h.1 y (List.takeWhile_subset _ hy)
          · rcases List.mem_cons.1 hy with hy | hy
            · subst hy
              rw [hx]
              simpa using hd
            · exact h.1 y (List.dropWhile_subset _ hy)
        · exact ih h.2
      · have hlt : strLess nm d.name = true := by simpa using hd
        rw [List.takeWhile_cons, List.dropWhile_cons, if_neg (by simp [hlt]),
          if_neg (by simp [hlt]), List.nil_append, namesSorted, List.pairwise_cons]
        constructor
        · intro y hy
          rcases List.mem_cons.1 hy with hy | hy
          · subst hy
            rw [hx]
            exact charsLess_asymm _ _ hlt
          · have hdy : strLess y.name d.name = false := h.1 y hy
            by_contra hcon
            simp only [Bool.not_eq_false] at hcon
            rw [hx] at hcon
            have h3 : strLess y.name d.name = true :=
              charsLess_trans _ _ _ hcon hlt
            rw [hdy] at h3
            exact absurd h3 (by simp)
        · exact List.pairwise_cons.2 h

/-- C5: each `addChild` inserts the new child immediately before the
first existing sibling whose name sorts after the new name (or appends
it at the end), and therefore any sequence of `addChild` calls on a
parent whose children are in non-decreasing name order leaves the
children in non-decreasing lexicographic name order. -/
theorem c5_addChild_sorted :
    (∀ (n : ATree) (t : NodeType) (nm : String),
        (addChild n t nm).children =
          n.children.takeWhile (fun c => !strLess nm c.name) ++
            ATree.mk ⟨t, nm, pathJoin [n.path, nm], none, [], "", ""⟩ [] ::
              n.children.dropWhile (fun c => !strLess nm c.name)) ∧
    (∀ (n : ATree) (t : NodeType) (nm : String),
        namesSorted n.children → namesSorted (addChild n t nm).children) ∧
    (∀ (n : ATree) (calls : List (NodeType × String)),
        namesSorted n.children →
        namesSorted ((calls.foldl (fun m pr => addChild m pr.1 pr.2) n).children)) := by
  have hstep : ∀ (n : ATree) (t : NodeType) (nm : String),
      namesSorted n.children → namesSorted (addChild n t nm).children := by
    intro n t nm h
    rw [addChild_children_eq]
    exact sorted_insert_boundary nm
      (ATree.mk ⟨t, nm, pathJoin [n.path, nm], none, [], "", ""⟩ []) rfl n.children h
  refine ⟨fun n t nm => addChild_children_eq n t nm, hstep, ?_⟩
  intro n calls
  induction calls generalizing n with
  | nil => intro h; exact h
  | cons pr rest ih =>
      intro h
      rw [List.foldl_cons]
      exact ih _ (hstep n pr.1 pr.2 h)

/-- Witness for C5: a concrete insertion between two siblings and a
concrete call sequence, both ending sorted. -/
theorem c5_addChild_sorted_witness :
    namesSorted (addChild
      (dirN ("r") [leafN NodeType.FILENODE ("a"), leafN NodeType.FILENODE ("c")])
      NodeType.FILENODE ("b")).children ∧
    namesSorted (([(NodeType.FILENODE, "b"), (NodeType.FILENODE, "a")].foldl
      (fun m pr => addChild m pr.1 pr.2) (dirN ("r") [])).children) := by
  constructor
  · exact c5_addChild_sorted.2.1 _ NodeType.FILENODE ("b") (by decide)
  · exact c5_addChild_sorted.2.2 (dirN ("r") []) _ (by decide)

/-- String append is associative (via the character lists). -/
theorem strAppend_assoc (a b c : String) : a ++ b ++ c = a ++ (b ++ c) := by
  apply String.ext
  simp [String.data_append, List.append_assoc]

/-- Joining splits over list append for nonempty halves. -/
theorem joinSlash_append (xs ys : List String) (hx : xs ≠ []) (hy : ys ≠ []) :
    joinSlash (xs ++ ys) = joinSlash xs ++ "/" ++ joinSlash ys := by
  induction xs with
  | nil => cases hx rfl
  | cons x xs2 ih =>
      cases xs2 with
      | nil =>
          cases ys with
          | nil => cases hy rfl
          | cons y ys2 => rfl
      | cons x2 xs3 =>
          have h1 : joinSlash ((x :: x2 :: xs3) ++ ys) =
              x ++ "/" ++ joinSlash ((x2 :: xs3) ++ ys) := rfl
          have h2 : joinSlash (x :: x2 :: xs3) = x ++ "/" ++ joinSlash (x2 :: xs3) := rfl
          rw [h1, ih (by simp), h2]
          apply String.ext
          simp [String.data_append, List.append_assoc]

/-- Joining with a single trailing segment. -/
theorem joinSlash_append_single (xs : List String) (nm : String) (hx : xs ≠ []) :
    joinSlash (xs ++ [nm]) = joinSlash xs ++ "/" ++ nm := by
  rw [joinSlash_append xs [nm] hx (by simp)]
  rfl

/-- The extension scan ignores everything before the last slash. -/
theorem extFromRev_append_slash (nmrev : List Char) :
    ∀ (acc r : List Char), (∀ c ∈ nmrev, c ≠ '/') →
      extFromRev acc (nmrev ++ '/' :: r) = extFromRev acc nmrev := by
  induction nmrev with
  | nil =>
      intro acc r _
      rw [List.nil_append, extFromRev, extFromRev]
      simp
  | cons c rest ih =>
      intro acc r h
      have hc : c ≠ '/' := h c (by simp)
      rw [List.cons_append, extFromRev, extFromRev, if_neg hc, if_neg hc]
      by_cases hdot : c = '.'
      · simp [hdot]
      · simp only [hdot, if_false]
        exact ih (c :: acc) r (fun x hx => h x (by simp [hx]))

/-- `filepath.Ext` of a path ending in a slash-free final element only
looks at that element. -/
theorem filepathExt_append (a nm : String) (h : ('/' : Char) ∉ nm.data) :
    filepathExt (a ++ "/" ++ nm) = filepathExt nm := by
  rw [filepathExt, filepathExt]
  have hdata : (a ++ "/" ++ nm).data.reverse = nm.data.reverse ++ '/' :: a.data.reverse := by
    simp [String.data_append]
  rw [hdata, extFromRev_append_slash nm.data.reverse [] a.data.reverse
    (fun c hc he => h (by rw [List.mem_reverse] at hc; exact he ▸ hc))]

/-- The extension scan produces a suffix of the scanned text. -/
theorem extFromRev_suffix : ∀ (cs acc : List Char),
    extFromRev acc cs = [] ∨ ∃ pre, cs.reverse ++ acc = pre ++ extFromRev acc cs := by
  intro cs
  induction cs with
  | nil => intro acc; exact Or.inl rfl
  | cons c rest ih =>
      intro acc
      rw [extFromRev]
      by_cases hsl : c = '/'
      · simp [hsl]
      · rw [if_neg hsl]
        by_cases hdot : c = '.'
        · refine Or.inr ⟨rest.reverse, ?_⟩
          simp [hdot]
        · rw [if_neg hdot]
          rcases ih (c :: acc) with h | ⟨pre, hp⟩
          · exact Or.inl h
          · refine Or.inr ⟨pre, ?_⟩
            rw [List.reverse_cons, List.append_assoc, List.singleton_append]
            exact hp

/-- `filepath.Ext` of a string is one of its suffixes. -/
theorem filepathExt_suffix (nm : String) :
    filepathExt nm = "" ∨ ∃ pre, nm.data = pre ++ (filepathExt nm).data := by
  rcases extFromRev_suffix nm.data.reverse [] with h | ⟨pre, hp⟩
  · left
    rw [filepathExt, h]
  · right
    refine ⟨pre, ?_⟩
    rw [filepathExt]
    simpa using hp

/-- Dropping a list off the front of itself plus a remainder. -/
theorem dropPre_refl_append : ∀ (x y : List Char), dropPre (x ++ y) x = some y := by
  intro x
  induction x with
  | nil =>
      intro y
      rw [List.nil_append, dropPre]
  | cons c rest ih =>
      intro y
      rw [List.cons_append, dropPre, if_pos rfl]
      exact ih y

/-- `dropPre` commutes with appending on the right of the text. -/
theorem dropPre_append_right : ∀ (p x z y : List Char),
    dropPre x p = some y → dropPre (x ++ z) p = some (y ++ z) := by
  intro p
  induction p with
  | nil =>
      intro x z y h
      rw [dropPre] at h ⊢
      cases h
      rfl
  | cons q qs ih =>
      intro x z y h
      cases x with
      | nil => rw [dropPre] at h; cases h
      | cons c cs =>
          rw [dropPre] at h
          by_cases hc : c = q
          · rw [if_pos hc] at h
            rw [List.cons_append, dropPre, if_pos hc]
            exact ih cs z y h
          · rw [if_neg hc] at h
            cases h

/-- Go `strings.TrimPrefix(a ++ b, a) = b`. -/
theorem trimPre_append (a b : String) : trimPre (a ++ b) a = b := by
  rw [trimPre]
  have : dropPre (a ++ b).data a.data = some b.data := by
    rw [String.data_append]
    exact dropPre_refl_append a.data b.data
  rw [this]

/-- Go `strings.TrimSuffix(s, "") = s`. -/
theorem trimSuf_empty (s : String) : trimSuf s "" = s := by
  have h : dropPre s.data.reverse (("" : String).data.reverse) = some s.data.reverse := by
    rw [show (("" : String).data.reverse) = ([] : List Char) from rfl, dropPre]
  rw [trimSuf, h]
  apply String.ext
  simp

/-- Trimming a suffix of the final component off a concatenation. -/
theorem trimSuf_append_left (a b s : String)
    (h : ∃ pre, b.data = pre ++ s.data) : trimSuf (a ++ b) s = a ++ trimSuf b s := by
  rcases h with ⟨pre, hp⟩
  have hb : b.data.reverse = s.data.reverse ++ pre.reverse := by
    rw [hp, List.reverse_append]
  have hdrop : dropPre b.data.reverse s.data.reverse = some pre.reverse := by
    rw [hb]
    exact dropPre_refl_append _ _
  have hdrop2 : dropPre (a ++ b).data.reverse s.data.reverse =
      some (pre.reverse ++ a.data.reverse) := by
    have : (a ++ b).data.reverse = b.data.reverse ++ a.data.reverse := by
      simp [String.data_append]
    rw [this]
    exact dropPre_append_right _ _ _ _ hdrop
  rw [trimSuf, trimSuf, hdrop, hdrop2]
  apply String.ext
  simp [String.data_append]

/-- A join of simple segments never starts with a separator. -/
theorem isRooted_joinSlash (s : String) (rest : List String)
    (h1 : s ≠ "") (h2 : ('/' : Char) ∉ s.data) :
    isRooted (joinSlash (s :: rest)) = false := by
  have hs : ∃ c cs, s.data = c :: cs ∧ c ≠ '/' := by
    cases hcs : s.data with
    | nil => exact absurd (String.ext hcs) h1
    | cons c cs =>
        refine ⟨c, cs, rfl, ?_⟩
        intro he
        exact h2 (by rw [hcs, he]; simp)
  rcases hs with ⟨c, cs, hcs, hc⟩
  cases rest with
  | nil =>
      rw [joinSlash, isRooted, hcs]
      simp [hc]
  | cons r rs =>
      have : joinSlash (s :: r :: rs) = s ++ "/" ++ joinSlash (r :: rs) := rfl
      rw [this, isRooted]
      have hdata : (s ++ "/" ++ joinSlash (r :: rs)).data =
          c :: (cs ++ '/' :: (joinSlash (r :: rs)).data) := by
        simp [String.data_append, hcs]
      rw [hdata]
      simp [hc]

/-- The cleaning fold pushes simple segments verbatim. -/
theorem foldl_cleanPush_simple (rooted : Bool) :
    ∀ (segs : List String) (acc : List String), (∀ s ∈ segs, simpleSeg s) →
      List.foldl (cleanPush rooted) acc segs = segs.reverse ++ acc := by
  intro segs
  induction segs with
  | nil => intro acc _; rfl
  | cons s rest ih =>
      intro acc h
      have hs := h s (by simp)
      rw [List.foldl_cons]
      have hpush : cleanPush rooted acc s = s :: acc := by
        rw [cleanPush.eq_def, if_neg (by simp [hs.1, hs.2.1]), if_neg hs.2.2.1]
      rw [hpush, ih (s :: acc) (fun x hx => h x (by simp [hx]))]
      simp

/-- A join whose first segment is nonempty is nonempty. -/
theorem joinSlash_ne_empty (s : String) (rest : List String) (h1 : s ≠ "") :
    joinSlash (s :: rest) ≠ "" := by
  intro he
  have hd : (joinSlash (s :: rest)).data = [] := by rw [he]
  cases hcs : s.data with
  | nil => exact h1 (String.ext hcs)
  | cons c cs =>
      cases rest with
      | nil =>
          rw [joinSlash] at hd
          rw [hcs] at hd
          cases hd
      | cons r rs =>
          have hj : (joinSlash (s :: r :: rs)).data =
              s.data ++ ('/' :: (joinSlash (r :: rs)).data) := by
            show ((s ++ "/") ++ joinSlash (r :: rs)).data = _
            simp [String.data_append]
          rw [hj, hcs] at hd
          cases hd

/-- Evaluates `path.Clean` once its split, fold and body are known. -/
theorem pathClean_formula (p : String) (h0 : p ≠ "") (hroot : isRooted p = false)
    (segs : List String) (hsplit : splitSlash p = segs) (out : List String)
    (hfold : List.foldl (cleanPush false) [] segs = out)
    (hbody : joinSlash out.reverse ≠ "") :
    pathClean p = joinSlash out.reverse := by
  rw [pathClean, if_neg h0]
  simp only [hroot, hsplit, Bool.false_eq_true, if_false]
  rw [hfold]
  rw [if_neg hbody]

/-- `path.Clean` is the identity on nonempty joins of simple
segments. -/
theorem pathClean_join_simple (segs : List String) (h0 : segs ≠ [])
    (h : ∀ s ∈ segs, simpleSeg s) : pathClean (joinSlash segs) = joinSlash segs := by
  cases segs with
  | nil => cases h0 rfl
  | cons s rest =>
      have hs := h s (by simp)
      have hne : joinSlash (s :: rest) ≠ "" := joinSlash_ne_empty s rest hs.1
      have := pathClean_formula (joinSlash (s :: rest)) hne
        (isRooted_joinSlash s rest hs.1 hs.2.2.2) (s :: rest)
        (splitSlash_joinSlash (s :: rest) (by simp) (fun x hx => (h x hx).2.2.2))
        ((s :: rest).reverse)
        (by rw [foldl_cleanPush_simple false (s :: rest) [] h, List.append_nil])
        (by rw [List.reverse_reverse]; exact hne)
      rw [this, List.reverse_reverse]

/-- `path.Join` collapses a trailing `name, "..", hash` triple into the
hash, on simple segments: the mirrored image path with the node's name
replaced by the digest directory. -/
theorem pathJoin_dotdot (segs : List String) (nm h : String)
    (hsegs : ∀ s ∈ segs, simpleSeg s) (hnm : simpleSeg nm) (hh : simpleSeg h) :
    pathJoin [joinSlash (segs ++ [nm]), "..", h] = joinSlash (segs ++ [h]) := by
  have hne : joinSlash (segs ++ [nm]) ≠ "" := by
    cases segs with
    | nil => exact joinSlash_ne_empty nm [] hnm.1
    | cons s rest =>
        rw [List.cons_append]
        exact joinSlash_ne_empty s (rest ++ [nm]) (hsegs s (by simp)).1
  have hjoin : joinSlash [joinSlash (segs ++ [nm]), "..", h] =
      joinSlash ((segs ++ [nm]) ++ ["..", h]) := by
    rw [joinSlash_append (segs ++ [nm]) ["..", h] (by simp) (by simp)]
    rfl
  have hdrop : List.dropWhile (fun e => e = "") [joinSlash (segs ++ [nm]), "..", h] =
      [joinSlash (segs ++ [nm]), "..", h] := by
    rw [List.dropWhile_cons]
    simp [hne]
  rw [pathJoin, hdrop]
  show pathClean (joinSlash [joinSlash (segs ++ [nm]), "..", h]) = _
  rw [hjoin]
  have hall : ∀ s ∈ (segs ++ [nm]) ++ ["..", h], ('/' : Char) ∉ s.data := by
    intro s hsm
    rcases List.mem_append.1 hsm with hsm | hsm
    · rcases List.mem_append.1 hsm with hsm | hsm
      · exact (hsegs s hsm).2.2.2
      · simp at hsm
        subst hsm
        exact hnm.2.2.2
    · rcases List.mem_cons.1 hsm with hsm | hsm
      · subst hsm; simp
      · simp at hsm
        subst hsm
        exact hh.2.2.2
  have hfirst : isRooted (joinSlash ((segs ++ [nm]) ++ ["..", h])) = false := by
    cases segs with
    | nil => exact isRooted_joinSlash nm ["..", h] hnm.1 hnm.2.2.2
    | cons s rest =>
        have hs := hsegs s (by simp)
        have : ((s :: rest) ++ [nm]) ++ ["..", h] = s :: ((rest ++ [nm]) ++ ["..", h]) := by
          simp
        rw [this]
        exact isRooted_joinSlash s ((rest ++ [nm]) ++ ["..", h]) hs.1 hs.2.2.2
  have hne2 : joinSlash ((segs ++ [nm]) ++ ["..", h]) ≠ "" := by
    cases segs with
    | nil =>
        show joinSlash ([nm] ++ ["..", h]) ≠ ""
        rw [List.cons_append]
        exact joinSlash_ne_empty nm (([] : List String) ++ ["..", h]) hnm.1
    | cons s rest =>
        have : ((s :: rest) ++ [nm]) ++ ["..", h] = s :: ((rest ++ [nm]) ++ ["..", h]) := by
          simp
        rw [this]
        exact joinSlash_ne_empty s _ (hsegs s (by simp)).1
  have hfold : List.foldl (cleanPush false) [] ((segs ++ [nm]) ++ ["..", h]) =
      h :: segs.reverse := by
    rw [List.append_assoc, List.foldl_append, foldl_cleanPush_simple false segs [] hsegs,
      List.append_nil]
    have p1 : cleanPush false segs.reverse nm = nm :: segs.reverse := by
      rw [cleanPush.eq_def, if_neg (by simp [hnm.1, hnm.2.1]), if_neg hnm.2.2.1]
    have p2 : cleanPush false (nm :: segs.reverse) ".." = segs.reverse := by
      rw [cleanPush.eq_def, if_neg (by simp), if_pos rfl]
      simp [hnm.2.2.1]
    have p3 : cleanPush false segs.reverse h = h :: segs.reverse := by
      rw [cleanPush.eq_def, if_neg (by simp [hh.1, hh.2.1]), if_neg hh.2.2.1]
    rw [List.singleton_append, List.foldl_cons, p1, List.foldl_cons, p2, List.foldl_cons, p3]
    rfl
  have hnej : joinSlash (segs ++ [h]) ≠ "" := by
    cases segs with
    | nil => exact joinSlash_ne_empty h [] hh.1
    | cons s rest =>
        rw [List.cons_append]
        exact joinSlash_ne_empty s (rest ++ [h]) (hsegs s (by simp)).1
  have := pathClean_formula (joinSlash ((segs ++ [nm]) ++ ["..", h])) hne2 hfirst
    ((segs ++ [nm]) ++ ["..", h])
    (splitSlash_joinSlash _ (by simp) hall)
    (h :: segs.reverse) hfold
    (by simpa using hnej)
  rw [this]
  simp

/-- The node-data output of the publishing visitor does not depend on
the accumulated output record. -/
theorem processData_fst (env : PubEnv) (rootPath outDirPath : String) (out : OutFs)
    (d : NodeData) (p : NodeData × OutFs)
    (h : processData env rootPath outDirPath out d = some p) :
    processDataF env rootPath outDirPath d = some p.1 := by
  rw [processDataF]
  cases htt : d.t
  · simp only [processData, htt] at h ⊢
    cases hc : contentOf env.fs d <;> simp only [hc] at h ⊢
    · cases h
    · injection h with h1
      subst h1
      rfl
  · simp only [processData, htt] at h ⊢
    injection h with h1
    subst h1
    rfl
  · simp only [processData, htt] at h ⊢
    cases hc : contentOf env.fs d <;> simp only [hc] at h ⊢
    · cases h
    · cases hs : processSizesLoop env _ d.path
          (pathJoin [outDirPath, pathJoin [trimPre d.path (rootPath ++ "/"), "..",
            env.digest _]]) d.name d.sizes <;> simp only [hs] at h ⊢
      · cases h
      · injection h with h1
        subst h1
        rfl

/-- What a successful `processSizes` loop produces: every size comes
out materialized (widths and flags otherwise untouched), and every size
that was not yet materialized gets a `<width><ext>` file written inside
the processed directory, the original one holding the content bytes. -/
theorem processSizesLoop_spec (env : PubEnv) (content : List Nat)
    (nodePath pp nm : String) :
    ∀ (sizes sizes2 : List ImgSize) (writes : List (String × List Nat)),
      processSizesLoop env content nodePath pp nm sizes = some (sizes2, writes) →
      sizes2 = sizes.map (fun sz => { sz with processed := true }) ∧
      ∀ sz ∈ sizes, sz.processed = false →
        ∃ bs, (pathJoin [pp, itoa sz.width ++ filepathExt nm], bs) ∈ writes ∧
          (sz.original = true → bs = content) := by
  intro sizes
  induction sizes with
  | nil =>
      intro s2 w h
      rw [processSizesLoop] at h
      injection h with h1
      injection h1 with h2 h3
      subst h2
      subst h3
      exact ⟨rfl, by intro sz hsz; cases hsz⟩
  | cons sz rest ih =>
      intro s2 w h
      cases hp : sz.processed
      · rw [processSizesLoop, if_neg (by simp [hp])] at h
        cases hb : (if sz.original then some content
            else env.resize sz.width nodePath) with
        | none => rw [hb] at h; cases h
        | some bs =>
            rw [hb] at h
            cases hrec : processSizesLoop env content nodePath pp nm rest with
            | none => rw [hrec] at h; cases h
            | some q =>
                rw [hrec] at h
                injection h with h1
                injection h1 with h2 h3
                subst h2
                subst h3
                rcases ih q.1 q.2 (by rw [hrec]) with ⟨hmap, hwr⟩
                constructor
                · rw [List.map_cons, hmap]
                · intro sz2 hsz2 hsz2p
                  rcases List.mem_cons.1 hsz2 with he | he
                  · subst he
                    refine ⟨bs, ?_, ?_⟩
                    · have : pathJoin [pp, itoa sz2.width ++ filepathExt nm] =
                          generateSizeProcessedPath false ("") pp nm sz2 := by
                        rw [generateSizeProcessedPath, if_neg (by simp)]
                      rw [this]
                      exact List.mem_cons_self _ _
                    · intro ho
                      rw [ho] at hb
                      simp at hb
                      exact hb.symm
                  · rcases hwr sz2 he hsz2p with ⟨bs2, hin, horig⟩
                    exact ⟨bs2, List.mem_cons_of_mem _ hin, horig⟩
      · rw [processSizesLoop, if_pos (by simp [hp])] at h
        cases hrec : processSizesLoop env content nodePath pp nm rest with
        | none => rw [hrec] at h; cases h
        | some q =>
            rw [hrec] at h
            injection h with h1
            injection h1 with h2 h3
            subst h2
            subst h3
            rcases ih q.1 q.2 (by rw [hrec]) with ⟨hmap, hwr⟩
            constructor
            · rw [List.map_cons, hmap]
              have : { sz with processed := true } = sz := by
                cases sz with
                | mk o wd pr => simp at hp; rw [hp]
              rw [this]
            · intro sz2 hsz2 hsz2p
              rcases List.mem_cons.1 hsz2 with he | he
              · subst he
                rw [hp] at hsz2p
                cases hsz2p
              · exact hwr sz2 he hsz2p

/-- Publishing a plain file node: the output-relative path is the
node's relative path with the basename rewritten to
`<name-without-ext>-<hexdigest><ext>`, the bytes are written there, and
no other node field changes. -/
theorem processData_file_spec (env : PubEnv) (rootPath outDirPath : String) (out : OutFs)
    (segs : List String) (d : NodeData) (content : List Nat) (p : NodeData × OutFs)
    (ht : d.t = NodeType.FILENODE)
    (hname : simpleSeg d.name)
    (hpath : d.path = rootPath ++ "/" ++ joinSlash (segs ++ [d.name]))
    (hc : contentOf env.fs d = some content)
    (h : processData env rootPath outDirPath out d = some p) :
    p.1.processedRelPath =
      joinSlash (segs ++ [trimSuf d.name (filepathExt d.name) ++ "-" ++
        env.digest content ++ filepathExt d.name]) ∧
    p.1.processedPath = pathJoin [outDirPath, p.1.processedRelPath] ∧
    p.2.files = out.files ++ [(p.1.processedPath, content)] ∧
    p.2.dirs = out.dirs ∧
    p.1.t = d.t ∧ p.1.name = d.name ∧ p.1.path = d.path ∧
    p.1.content = d.content ∧ p.1.sizes = d.sizes := by
  have hpwr : trimPre d.path (rootPath ++ "/") = joinSlash (segs ++ [d.name]) := by
    rw [hpath]
    exact trimPre_append _ _
  have hprp : trimSuf (trimPre d.path (rootPath ++ "/"))
        (filepathExt (trimPre d.path (rootPath ++ "/"))) ++ "-" ++
        env.digest content ++ filepathExt (trimPre d.path (rootPath ++ "/")) =
      joinSlash (segs ++ [trimSuf d.name (filepathExt d.name) ++ "-" ++
        env.digest content ++ filepathExt d.name]) := by
    rw [hpwr]
    cases segs with
    | nil => rfl
    | cons s rest =>
        rw [joinSlash_append_single (s :: rest) d.name (by simp),
          joinSlash_append_single (s :: rest) _ (by simp),
          filepathExt_append _ _ hname.2.2.2]
        rcases filepathExt_suffix d.name with hE | ⟨pre, hpre⟩
        · rw [hE, trimSuf_empty, trimSuf_empty]
          apply String.ext
          simp [String.data_append, List.append_assoc]
        · rw [trimSuf_append_left (joinSlash (s :: rest) ++ "/") d.name
            (filepathExt d.name) ⟨pre, hpre⟩]
          apply String.ext
          simp [String.data_append, List.append_assoc]
  simp only [processData, ht, hc] at h
  injection h with h1
  subst h1
  exact ⟨hprp, rfl, by rw [hprp], rfl, ht.symm, rfl, rfl, rfl, rfl⟩

/-- Publishing an image node: the output path is a directory named by
the digest of the original bytes replacing the node's name in the
mirrored path; every size variant is materialized and gets its
`<width><ext>` file inside that directory, the original variant holding
the original bytes. -/
theorem processData_img_spec (env : PubEnv) (rootPath outDirPath : String) (out : OutFs)
    (segs : List String) (d : NodeData) (content : List Nat) (p : NodeData × OutFs)
    (ht : d.t = NodeType.IMGNODE)
    (hsegs : ∀ s ∈ segs, simpleSeg s) (hname : simpleSeg d.name)
    (hhash : simpleSeg (env.digest content))
    (hpath : d.path = rootPath ++ "/" ++ joinSlash (segs ++ [d.name]))
    (hc : contentOf env.fs d = some content)
    (h : processData env rootPath outDirPath out d = some p) :
    p.1.processedRelPath = joinSlash (segs ++ [env.digest content]) ∧
    p.1.processedPath = pathJoin [outDirPath, p.1.processedRelPath] ∧
    p.2.dirs = out.dirs ++ [p.1.processedPath] ∧
    p.1.sizes = d.sizes.map (fun sz => { sz with processed := true }) ∧
    (∀ sz ∈ d.sizes, sz.processed = false →
      ∃ bs, (pathJoin [p.1.processedPath, itoa sz.width ++ filepathExt d.name], bs)
          ∈ p.2.files ∧ (sz.original = true → bs = content)) ∧
    p.1.t = d.t ∧ p.1.name = d.name ∧ p.1.path = d.path ∧ p.1.content = d.content := by
  have hpwr : trimPre d.path (rootPath ++ "/") = joinSlash (segs ++ [d.name]) := by
    rw [hpath]
    exact trimPre_append _ _
  have hprp : pathJoin [trimPre d.path (rootPath ++ "/"), "..", env.digest content] =
      joinSlash (segs ++ [env.digest content]) := by
    rw [hpwr]
    exact pathJoin_dotdot segs d.name (env.digest content) hsegs hname hhash
  simp only [processData, ht, hc] at h
  cases hs : processSizesLoop env content d.path (pathJoin [outDirPath,
      pathJoin [trimPre d.path (rootPath ++ "/"), "..", env.digest content]])
      d.name d.sizes with
  | none => rw [hs] at h; cases h
  | some q =>
      cases q with
      | mk sizes2 writes =>
          rw [hs] at h
          injection h with h1
          subst h1
          rcases processSizesLoop_spec env content d.path _ d.name d.sizes sizes2 writes hs
            with ⟨hmap, hwr⟩
          refine ⟨hprp, rfl, rfl, hmap, ?_, ht.symm, rfl, rfl, rfl⟩
          intro sz hsz hszp
          rcases hwr sz hsz hszp with ⟨bs, hin, horig⟩
          exact ⟨bs, List.mem_append_right _ hin, horig⟩

/-- A successful run of `process`'s child loop rewrites every node:
the shape is preserved and each node's scalar data goes through the
visitor. -/
theorem processChildren_shape (env : PubEnv) (rootPath outDirPath : String) :
    ∀ (cs : List ATree) (out : OutFs) (r : List ATree × OutFs),
      processChildren env rootPath outDirPath out cs = some r →
      ProcForest env rootPath outDirPath cs r.1
  | [], _, r, h => by
      rw [processChildren] at h
      injection h with h1
      subst h1
      exact ProcForest.nil
  | ATree.mk d ccs :: rest, out, r, h => by
      rw [processChildren] at h
      cases htt : d.t with
      | DIRNODE =>
          simp only [ATree.t, ATree.data, htt] at h
          cases hn : processNode env rootPath outDirPath false out (ATree.mk d ccs) with
          | none => simp only [hn] at h; cases h
          | some pr =>
              cases pr with
              | mk c2 out2 =>
                  simp only [hn] at h
                  cases hrest : processChildren env rootPath outDirPath out2 rest with
                  | none => simp only [hrest] at h; cases h
                  | some r2 =>
                      cases r2 with
                      | mk rest2 out3 =>
                          simp only [hrest] at h
                          injection h with h1
                          subst h1
                          rw [processNode] at hn
                          simp only [Bool.false_eq_true, if_false] at hn
                          cases hd : processData env rootPath outDirPath out d with
                          | none => simp only [hd] at hn; cases hn
                          | some pd =>
                              cases pd with
                              | mk d2 outd =>
                                  simp only [hd] at hn
                                  cases hcc : processChildren env rootPath outDirPath outd ccs with
                                  | none => simp only [hcc] at hn; cases hn
                                  | some rcc =>
                                      cases rcc with
                                      | mk ccs2 outc =>
                                          simp only [hcc] at hn
                                          injection hn with h2
                                          injection h2 with h3 h4
                                          subst h3
                                          exact ProcForest.consDir d d2 ccs ccs2 rest rest2 htt
                                            (processData_fst env rootPath outDirPath out d
                                              (d2, outd) hd)
                                            (processChildren_shape env rootPath outDirPath ccs
                                              outd (ccs2, outc) hcc)
                                            (processChildren_shape env rootPath outDirPath rest
                                              out2 (rest2, out3) hrest)
      | FILENODE =>
          simp only [ATree.t, ATree.data, ATree.children, htt] at h
          cases hd : processData env rootPath outDirPath out d with
          | none => simp only [hd] at h; cases h
          | some pd =>
              cases pd with
              | mk d2 outd =>
                  simp only [hd] at h
                  cases hrest : processChildren env rootPath outDirPath outd rest with
                  | none => simp only [hrest] at h; cases h
                  | some r2 =>
                      cases r2 with
                      | mk rest2 out3 =>
                          simp only [hrest] at h
                          injection h with h1
                          subst h1
                          exact ProcForest.consLeaf d d2 ccs rest rest2 (by simp [htt])
                            (processData_fst env rootPath outDirPath out d (d2, outd) hd)
                            (processChildren_shape env rootPath outDirPath rest outd
                              (rest2, out3) hrest)
      | IMGNODE =>
          simp only [ATree.t, ATree.data, ATree.children, htt] at h
          cases hd : processData env rootPath outDirPath out d with
          | none => simp only [hd] at h; cases h
          | some pd =>
              cases pd with
              | mk d2 outd =>
                  simp only [hd] at h
                  cases hrest : processChildren env rootPath outDirPath outd rest with
                  | none => simp only [hrest] at h; cases h
                  | some r2 =>
                      cases r2 with
                      | mk rest2 out3 =>
                          simp only [hrest] at h
                          injection h with h1
                          subst h1
                          exact ProcForest.consLeaf d d2 ccs rest rest2 (by simp [htt])
                            (processData_fst env rootPath outDirPath out d (d2, outd) hd)
                            (processChildren_shape env rootPath outDirPath rest outd
                              (rest2, out3) hrest)
termination_by cs _ _ _ => sizeOf cs

/-- A successful `process` with `processRoot = false` skips the root
and rewrites the whole forest below it through the visitor. -/
theorem process_shape (env : PubEnv) (outDirPath : String) (n n2 : ATree) (out2 : OutFs)
    (h : process env outDirPath false n = some (n2, out2)) :
    ProcForest env n.path outDirPath n.children n2.children := by
  rw [process] at h
  cases n with
  | mk d cs =>
      rw [processNode] at h
      simp only [Bool.not_false, if_true] at h
      cases hc : processChildren env (ATree.mk d cs).path outDirPath ⟨[], []⟩ cs with
      | none => simp only [hc] at h; cases h
      | some r =>
          cases r with
          | mk cs2 out3 =>
              simp only [hc] at h
              injection h with h1
              injection h1 with h2 h3
              have := processChildren_shape env (ATree.mk d cs).path outDirPath cs
                ⟨[], []⟩ (cs2, out3) hc
              rw [← h2]
              simpa using this

/-- A pattern embedded in a character list is found by the substring
scan. -/
theorem hasSubstr_embed (pat a b : List Char) :
    hasSubstr pat (a ++ (pat ++ b)) = true := by
  induction a with
  | nil =>
      rw [List.nil_append]
      cases hp : pat ++ b with
      | nil =>
          rcases List.append_eq_nil.1 hp with ⟨h1, _⟩
          subst h1
          rfl
      | cons c rest =>
          rw [hasSubstr, ← hp, dropPre_refl_append]
          simp
  | cons x a2 ih =>
      rw [List.cons_append, hasSubstr, ih]
      simp

/-- C9: a missing root ingestion path yields an empty tree — a root
`DIRNODE` named by the fixed constant `assets`, with no children — and
no error; any other ingestion error (an unreadable directory, or an
image-header decode failure on a non-ignored image-named entry) aborts
with that error. -/
theorem c9_missing_root :
    (∀ (fs : IngestFs) (ignore : List (String → Bool)) (fuel : Nat) (p : String),
        fs.readDir (pathClean p) = Except.error IngErr.notExist →
        generateAssetsTree fs ignore (fuel + 1) p =
          Except.ok (ATree.mk ⟨NodeType.DIRNODE, "assets", pathClean p, none, [], "", ""⟩ [])) ∧
    (∀ (fs : IngestFs) (ignore : List (String → Bool)) (fuel : Nat) (p m : String),
        fs.readDir (pathClean p) = Except.error (IngErr.other m) →
        generateAssetsTree fs ignore (fuel + 1) p = Except.error (IngErr.other m)) ∧
    (∀ (fs : IngestFs) (ignore : List (String → Bool)) (fuel : Nat) (p : String)
        (e : String × Bool) (rest : List (String × Bool)) (m : String),
        fs.readDir (pathClean p) = Except.ok (e :: rest) →
        hasSubstr (".gitkeep".data) (entryMatchName e).data = false →
        ignore.any (fun rx => rx (entryMatchName e)) = false →
        imgNameMatches e.1 = true →
        fs.imgDim (pathJoin [pathClean p, e.1]) = Except.error (IngErr.other m) →
        generateAssetsTree fs ignore (fuel + 1) p = Except.error (IngErr.other m)) := by
  refine ⟨?_, ?_, ?_⟩
  · intro fs ignore fuel p h
    rw [generateAssetsTree]
    simp only [generateAssetsTreeRec, h]
  · intro fs ignore fuel p m h
    rw [generateAssetsTree]
    simp only [generateAssetsTreeRec, h]
  · intro fs ignore fuel p e rest m h hkeep hig himg hdim
    rw [generateAssetsTree]
    simp only [generateAssetsTreeRec, h, genEntries, hkeep, hig, himg, hdim]
    simp

/-- Witness for C9 on three tiny filesystems: a missing root, an
unreadable root, and a root holding one image with a corrupt header. -/
theorem c9_missing_root_witness :
    generateAssetsTree ingFsMissing [] 1 ("a") =
      Except.ok (ATree.mk ⟨NodeType.DIRNODE, "assets", pathClean ("a"), none, [], "", ""⟩ []) ∧
    generateAssetsTree ingFsUnreadable [] 1 ("a") =
      Except.error (IngErr.other ("permission denied")) ∧
    generateAssetsTree ingFsBadImg [] 1 ("a") =
      Except.error (IngErr.other ("bad header")) := by
  refine ⟨?_, ?_, ?_⟩
  · exact c9_missing_root.1 ingFsMissing [] 0 ("a") (by rfl)
  · exact c9_missing_root.2.1 ingFsUnreadable [] 0 ("a") ("permission denied") (by rfl)
  · exact c9_missing_root.2.2 ingFsBadImg [] 0 ("a") ("i.jpg", false) [] ("bad header")
      (by rfl) (by rfl) (by rfl) (by rfl) (by rfl)

/-- Reading an updated slot. -/
theorem hupd_same (h : Heap) (i : Nat) (f : HNode → HNode) : hupd h i f i = f (h i) := by
  rw [hupd]
  simp

/-- Reading another slot. -/
theorem hupd_other (h : Heap) (i : Nat) (f : HNode → HNode) (j : Nat) (hne : j ≠ i) :
    hupd h i f j = h j := by
  rw [hupd]
  simp [hne]

/-- Reading a blanked slot. -/
theorem blankOn_mem (s : List Nat) (h : Heap) (i : Nat) (hm : i ∈ s) :
    blankOn s h i = { h i with path := "" } := by
  rw [blankOn]
  simp [hm]

/-- Reading an unblanked slot. -/
theorem blankOn_not_mem (s : List Nat) (h : Heap) (i : Nat) (hm : i ∉ s) :
    blankOn s h i = h i := by
  rw [blankOn]
  simp [hm]

/-- A single path-blanking update is a singleton blanking. -/
theorem hupd_blank_eq (h : Heap) (c : Nat) :
    hupd h c (fun nd => { nd with path := "" }) = blankOn [c] h := by
  funext j
  rw [hupd, blankOn]
  by_cases hj : j = c <;> simp [hj]

/-- Blanking composes into a single blanking. -/
theorem blankOn_blankOn (s1 s2 : List Nat) (h : Heap) :
    blankOn s1 (blankOn s2 h) = blankOn (s2 ++ s1) h := by
  funext j
  rw [blankOn, blankOn, blankOn]
  by_cases h1 : j ∈ s1 <;> by_cases h2 : j ∈ s2 <;> simp [h1, h2]

/-- A chain starting nowhere is empty. -/
theorem encChain_none (h : Heap) (p : Nat) (prev : Option Nat) (cs : List ITree)
    (he : EncChain h p prev none cs) : cs = [] := by
  cases he
  rfl

/-- The head of a chain determines its cursor. -/
theorem encChain_cur (h : Heap) (p : Nat) (prev cur : Option Nat) (cs : List ITree)
    (he : EncChain h p prev cur cs) :
    (cur = none ∧ cs = []) ∨
      ∃ d dcs rest2, cs = ITree.mk d dcs :: rest2 ∧ cur = some d := by
  cases he with
  | nil => exact Or.inl ⟨rfl, rfl⟩
  | cons c ccs rest hpar hprev hleaf hkids hrest => exact Or.inr ⟨c, ccs, rest, rfl, rfl⟩

/-- Forest identifiers distribute over append. -/
theorem idsOfF_append : ∀ (a b : List ITree), idsOfF (a ++ b) = idsOfF a ++ idsOfF b := by
  intro a
  induction a with
  | nil => intro b; simp [idsOfF]
  | cons t ts ih =>
      intro b
      cases t with
      | mk i cs =>
          rw [List.cons_append, idsOfF, idsOfF, ih]
          simp [List.append_assoc]

/-- Chains only look at the link fields and node types of their
members: any heap agreeing there encodes the same chain. -/
theorem encChain_congr : ∀ {h1 : Heap} {p : Nat} {prev cur : Option Nat} {cs : List ITree},
    EncChain h1 p prev cur cs → ∀ h2 : Heap,
    (∀ i ∈ idsOfF cs, (h2 i).parent = (h1 i).parent ∧ (h2 i).previous = (h1 i).previous ∧
      (h2 i).next = (h1 i).next ∧ (h2 i).firstChild = (h1 i).firstChild ∧
      (h2 i).t = (h1 i).t) →
    EncChain h2 p prev cur cs := by
  intro h1 p prev cur cs he
  induction he with
  | nil => exact fun h2 _ => EncChain.nil h2 _ _
  | cons c ccs rest hpar hprev hleaf hkids hrest ihk ihr =>
    intro h2 hagree
    have hc := hagree c (by rw [idsOfF]; simp)
    refine EncChain.cons c ccs rest (hc.1.trans hpar) (hc.2.1.trans hprev)
      (fun hne => by rw [hc.2.2.2.1]; exact hleaf (fun he => hne (hc.2.2.2.2.trans he)))
      ?_ ?_
    · rw [hc.2.2.2.1]
      exact ihk h2 (fun i hi => hagree i (by rw [idsOfF]; simp [hi]))
    · rw [hc.2.2.1]
      exact ihr h2 (fun i hi => hagree i (by rw [idsOfF]; simp [hi]))

/-- What the blanking loop computes on an encoded chain: it blanks the
`path` of exactly the chain's subtree identifiers. -/
theorem blankChain_spec : ∀ (n : Nat) (cs : List ITree) (fuel : Nat) (h : Heap)
    (p : Nat) (prev cur : Option Nat),
    EncChain h p prev cur cs → (idsOfF cs).length ≤ n → (idsOfF cs).length ≤ fuel →
    blankChain fuel h cur = blankOn (idsOfF cs) h := by
  intro n
  induction n with
  | zero =>
      intro cs fuel h p prev cur he hn _
      cases he with
      | nil =>
        have : blankChain fuel h none = h := by
          cases fuel <;> simp [blankChain]
        rw [this, idsOfF]
        funext j
        rw [blankOn]
        simp
      | cons c ccs rest hpar hprev hleaf hkids hrest =>
        rw [idsOfF] at hn
        simp at hn
  | succ n ih =>
      intro cs fuel h p prev cur he hn hfuel
      cases he with
      | nil =>
        have : blankChain fuel h none = h := by
          cases fuel <;> simp [blankChain]
        rw [this, idsOfF]
        funext j
        rw [blankOn]
        simp
      | cons c ccs rest hpar hprev hleaf hkids hrest =>
        rw [idsOfF] at hn hfuel ⊢
        simp only [List.length_cons, List.length_append] at hn hfuel
        cases fuel with
        | zero => omega
        | succ f =>
            have hccs_n : (idsOfF ccs).length ≤ n := by omega
            have hrest_n : (idsOfF rest).length ≤ n := by omega
            have hccs_f : (idsOfF ccs).length ≤ f := by omega
            have hrest_f : (idsOfF rest).length ≤ f := by omega
            by_cases ht : (h c).t = NodeType.DIRNODE
            · have hstep : blankChain (f + 1) h (some c) =
                  blankChain f (blankRec f h c) ((h c).next) := by
                simp [blankChain, ht]
              have hrec : blankRec f h c =
                  blankChain f (blankOn [c] h) ((h c).firstChild) := by
                rw [blankRec, hupd_blank_eq]
                have : (blankOn [c] h c).firstChild = (h c).firstChild := by
                  rw [blankOn_mem [c] h c (by simp)]
                rw [this]
              have hkids1 : EncChain (blankOn [c] h) c none ((h c).firstChild) ccs :=
                encChain_congr hkids (blankOn [c] h) (fun i _ => by
                  by_cases hic : i ∈ [c]
                  · rw [blankOn_mem _ _ _ hic]; exact ⟨rfl, rfl, rfl, rfl, rfl⟩
                  · rw [blankOn_not_mem _ _ _ hic]; exact ⟨rfl, rfl, rfl, rfl, rfl⟩)
              have hinner : blankChain f (blankOn [c] h) ((h c).firstChild) =
                  blankOn (idsOfF ccs) (blankOn [c] h) :=
                ih ccs f (blankOn [c] h) c none ((h c).firstChild) hkids1 hccs_n hccs_f
              have hrest1 : EncChain (blankOn ([c] ++ idsOfF ccs) h) p (some c)
                  ((h c).next) rest :=
                encChain_congr hrest _ (fun i _ => by
                  by_cases hic : i ∈ [c] ++ idsOfF ccs
                  · rw [blankOn_mem _ _ _ hic]; exact ⟨rfl, rfl, rfl, rfl, rfl⟩
                  · rw [blankOn_not_mem _ _ _ hic]; exact ⟨rfl, rfl, rfl, rfl, rfl⟩)
              have houter : blankChain f (blankOn ([c] ++ idsOfF ccs) h) ((h c).next) =
                  blankOn (idsOfF rest) (blankOn ([c] ++ idsOfF ccs) h) :=
                ih rest f _ p (some c) ((h c).next) hrest1 hrest_n hrest_f
              rw [hstep, hrec, hinner, blankOn_blankOn, houter, blankOn_blankOn]
              have : (([c] ++ idsOfF ccs) ++ idsOfF rest) =
                  c :: (idsOfF ccs ++ idsOfF rest) := by simp
              rw [this]
            · have hfc : (h c).firstChild = none := hleaf ht
              have hccs : ccs = [] := encChain_none h c none ccs (hfc ▸ hkids)
              subst hccs
              have hstep : blankChain (f + 1) h (some c) =
                  blankChain f (blankOn [c] h) ((h c).next) := by
                simp [blankChain, ht, hupd_blank_eq]
              have hrest1 : EncChain (blankOn [c] h) p (some c) ((h c).next) rest :=
                encChain_congr hrest _ (fun i _ => by
                  by_cases hic : i ∈ [c]
                  · rw [blankOn_mem _ _ _ hic]; exact ⟨rfl, rfl, rfl, rfl, rfl⟩
                  · rw [blankOn_not_mem _ _ _ hic]; exact ⟨rfl, rfl, rfl, rfl, rfl⟩)
              have houter : blankChain f (blankOn [c] h) ((h c).next) =
                  blankOn (idsOfF rest) (blankOn [c] h) :=
                ih rest f _ p (some c) ((h c).next) hrest1 hrest_n hrest_f
              rw [hstep, houter, blankOn_blankOn]
              have : ([c] ++ idsOfF rest) = c :: (idsOfF [] ++ idsOfF rest) := by
                rw [idsOfF]
                simp
              rw [this]

/-- Inversion of a non-empty encoded chain. -/
theorem encChain_cons_inv (h : Heap) (p : Nat) (prev cur : Option Nat) (c : Nat)
    (ccs rest : List ITree)
    (he : EncChain h p prev cur (ITree.mk c ccs :: rest)) :
    cur = some c ∧ (h c).parent = some p ∧ (h c).previous = prev ∧
    ((h c).t ≠ NodeType.DIRNODE → (h c).firstChild = none) ∧
    EncChain h c none ((h c).firstChild) ccs ∧
    EncChain h p (some c) ((h c).next) rest := by
  cases he with
  | cons c ccs rest hpar hprev hleaf hkids hrest =>
      exact ⟨rfl, hpar, hprev, hleaf, hkids, hrest⟩

/-- Locating a member of an encoded chain: its own fields, its subtree
encoding, and the doubly-linked consistency of its neighbours. -/
theorem encChain_locate : ∀ (L1 : List ITree) (h : Heap) (p x : Nat) (xcs L2 : List ITree)
    (prev cur : Option Nat),
    EncChain h p prev cur (L1 ++ ITree.mk x xcs :: L2) →
    (∀ q, prev = some q → (h q).next = cur) →
    (h x).parent = some p ∧
    ((h x).t ≠ NodeType.DIRNODE → (h x).firstChild = none) ∧
    EncChain h x none ((h x).firstChild) xcs ∧
    (∀ i, (h x).previous = some i →
      ((h i).next = some x ∧ (i ∈ idsOfF L1 ∨ prev = some i))) ∧
    (∀ i, (h x).next = some i → ((h i).previous = some x ∧ i ∈ idsOfF L2)) ∧
    (((h x).previous = prev ∧ cur = some x ∧ L1 = []) ∨
      (∃ c ccs L1p, L1 = ITree.mk c ccs :: L1p ∧ cur = some c ∧
        ∃ q, (h x).previous = some q)) := by
  intro L1
  induction L1 with
  | nil =>
      intro h p x xcs L2 prev cur he hthread
      rw [List.nil_append] at he
      obtain ⟨hcur, hpar, hprevx, hleaf, hkids, hrest⟩ :=
        encChain_cons_inv h p prev cur x xcs L2 he
      refine ⟨hpar, hleaf, hkids, ?_, ?_, Or.inl ⟨hprevx, hcur, rfl⟩⟩
      · intro i hi
        have hpi : prev = some i := hprevx ▸ hi
        exact ⟨(hthread i hpi).trans hcur, Or.inr hpi⟩
      · intro i hi
        rw [hi] at hrest
        rcases encChain_cur h p (some x) (some i) L2 hrest with ⟨hno, _⟩ |
          ⟨d, dcs, r2, hL2, hcd⟩
        · exact absurd hno (by simp)
        · have hid : i = d := Option.some.inj hcd
          subst hid
          rw [hL2] at hrest
          obtain ⟨_, _, hprev2, _, _, _⟩ :=
            encChain_cons_inv h p (some x) (some i) i dcs r2 hrest
          exact ⟨hprev2, by rw [hL2, idsOfF]; simp⟩
  | cons t L1p ih =>
      intro h p x xcs L2 prev cur he hthread
      cases t with
      | mk c ccs =>
          rw [List.cons_append] at he
          obtain ⟨hcur, hpar, hprevc, hleafc, hkidsc, hrestc⟩ :=
            encChain_cons_inv h p prev cur c ccs (L1p ++ ITree.mk x xcs :: L2) he
          obtain ⟨i1, i2, i3, i4, i5, i6⟩ :=
            ih h p x xcs L2 (some c) ((h c).next) hrestc
              (fun q hq => by injection hq with hq; subst hq; rfl)
          refine ⟨i1, i2, i3, ?_, i5, ?_⟩
          · intro i hi
            obtain ⟨hnext, hor⟩ := i4 i hi
            refine ⟨hnext, Or.inl ?_⟩
            rcases hor with hmem | heq
            · rw [idsOfF]
              exact List.mem_cons_of_mem _ (List.mem_append_right _ hmem)
            · injection heq with heq
              subst heq
              rw [idsOfF]
              exact List.mem_cons_self _ _
          · refine Or.inr ⟨c, ccs, L1p, rfl, hcur, ?_⟩
            rcases i6 with ⟨hpveq, _, _⟩ | ⟨_, _, _, _, _, q, hq⟩
            · exact ⟨c, hpveq⟩
            · exact ⟨q, hq⟩

/-- Sibling surgery preserves chains that avoid the removed node and
the parent whose child list is edited. -/
theorem encChain_surgery (x proot : Nat) (h h2 : Heap)
    (hagree : ∀ i, i ≠ x → i ≠ proot →
      (h2 i).parent = (h i).parent ∧ (h2 i).t = (h i).t ∧
      (h2 i).firstChild = (h i).firstChild ∧
      (some i ≠ (h x).previous → (h2 i).next = (h i).next) ∧
      (some i = (h x).previous → (h2 i).next = (h x).next) ∧
      (some i ≠ (h x).next → (h2 i).previous = (h i).previous) ∧
      (some i = (h x).next → (h2 i).previous = (h x).previous))
    (hpvfact : ∀ i, (h x).previous = some i → (h i).next = some x)
    (hnxfact : ∀ i, (h x).next = some i → (h i).previous = some x) :
    ∀ {cs : List ITree} {p : Nat} {prev cur : Option Nat},
      EncChain h p prev cur cs →
      (∀ i ∈ idsOfF cs, i ≠ x ∧ i ≠ proot) →
      (prev = some x → cur = (h x).next) →
      EncChain h2 p (if prev = some x then (h x).previous else prev) cur cs := by
  intro cs p prev cur he
  induction he with
  | nil =>
      intro _ _
      exact EncChain.nil h2 _ _
  | cons c ccs rest hpar hprev hleaf hkids hrest ihk ihr =>
      intro hmem hinv
      have hcmem := hmem c (by rw [idsOfF]; simp)
      have hag := hagree c hcmem.1 hcmem.2
      refine EncChain.cons c ccs rest (hag.1.trans hpar) ?_ ?_ ?_ ?_
      · split
        next hpx => exact hag.2.2.2.2.2.2 (hinv hpx)
        next hpx =>
          by_cases hcn : some c = (h x).next
          · exact absurd (hprev.symm.trans (hnxfact c hcn.symm)) hpx
          · exact (hag.2.2.2.2.2.1 hcn).trans hprev
      · exact fun hne => by
          rw [hag.2.2.1]
          exact hleaf (fun ht => hne (hag.2.1.trans ht))
      · rw [hag.2.2.1]
        have hk := ihk (fun i hi => hmem i (by rw [idsOfF]; simp [hi]))
          (fun hco => Option.noConfusion hco)
        rwa [if_neg (show (none : Option Nat) ≠ some x by simp)] at hk
      · have hr := ihr (fun i hi => hmem i (by rw [idsOfF]; simp [hi]))
          (fun hcx => absurd (Option.some.inj hcx) hcmem.1)
        rw [if_neg (fun hcx => hcmem.1 (Option.some.inj hcx))] at hr
        by_cases hcp : some c = (h x).previous
        · have hnext : (h c).next = some x := hpvfact c hcp.symm
          rcases encChain_cur h _ (some c) ((h c).next) rest hrest with ⟨hcn, _⟩ |
            ⟨d, dcs, r2, hre, hcd⟩
          · rw [hnext] at hcn
            exact absurd hcn (by simp)
          · rw [hnext] at hcd
            have hdx : d = x := (Option.some.inj hcd).symm
            subst hdx
            exfalso
            exact (hmem d (by simp [hre, idsOfF])).1 rfl
        · rw [hag.2.2.2.1 hcp]
          exact hr

/-- Removing one member from an encoded chain: the surgically repaired
heap encodes the chain with that member spliced out. -/
theorem encChain_splice (x proot : Nat) (h h2 : Heap) (xcs : List ITree)
    (hagree : ∀ i, i ≠ x → i ≠ proot →
      (h2 i).parent = (h i).parent ∧ (h2 i).t = (h i).t ∧
      (h2 i).firstChild = (h i).firstChild ∧
      (some i ≠ (h x).previous → (h2 i).next = (h i).next) ∧
      (some i = (h x).previous → (h2 i).next = (h x).next) ∧
      (some i ≠ (h x).next → (h2 i).previous = (h i).previous) ∧
      (some i = (h x).next → (h2 i).previous = (h x).previous))
    (hpvfact : ∀ i, (h x).previous = some i → (h i).next = some x)
    (hnxfact : ∀ i, (h x).next = some i → (h i).previous = some x) :
    ∀ (L1 : List ITree) (p : Nat) (prev cur : Option Nat) (L2 : List ITree),
      EncChain h p prev cur (L1 ++ ITree.mk x xcs :: L2) →
      (∀ i ∈ idsOfF L1 ++ idsOfF L2, i ≠ x ∧ i ≠ proot) →
      prev ≠ some x →
      EncChain h2 p prev (if cur = some x then (h x).next else cur) (L1 ++ L2) := by
  intro L1
  induction L1 with
  | nil =>
      intro p prev cur L2 he hmem hprevne
      rw [List.nil_append] at he ⊢
      obtain ⟨hcur, hpar, hprevx, hleaf, hkids, hrest⟩ :=
        encChain_cons_inv h p prev cur x xcs L2 he
      subst hcur
      rw [if_pos rfl]
      have hs := encChain_surgery x proot h h2 hagree hpvfact hnxfact hrest
        (fun i hi => hmem i (by simpa [idsOfF] using hi)) (fun _ => rfl)
      rw [if_pos rfl] at hs
      rwa [hprevx] at hs
  | cons t L1p ih =>
      intro p prev cur L2 he hmem hprevne
      cases t with
      | mk c ccs =>
          rw [List.cons_append] at he
          obtain ⟨hcur, hpar, hprevc, hleafc, hkidsc, hrestc⟩ :=
            encChain_cons_inv h p prev cur c ccs (L1p ++ ITree.mk x xcs :: L2) he
          subst hcur
          have hcmem : c ≠ x ∧ c ≠ proot := hmem c (by simp [idsOfF])
          have hag := hagree c hcmem.1 hcmem.2
          rw [if_neg (fun hcx => hcmem.1 (Option.some.inj hcx)), List.cons_append]
          refine EncChain.cons c ccs (L1p ++ L2) (hag.1.trans hpar) ?_ ?_ ?_ ?_
          · by_cases hcn : some c = (h x).next
            · exact absurd (hprevc.symm.trans (hnxfact c hcn.symm)) hprevne
            · exact (hag.2.2.2.2.2.1 hcn).trans hprevc
          · exact fun hne => by
              rw [hag.2.2.1]
              exact hleafc (fun ht => hne (hag.2.1.trans ht))
          · rw [hag.2.2.1]
            have hk := encChain_surgery x proot h h2 hagree hpvfact hnxfact hkidsc
              (fun i hi => hmem i (by simp [idsOfF, hi]))
              (fun hco => Option.noConfusion hco)
            rwa [if_neg (show (none : Option Nat) ≠ some x by simp)] at hk
          · have hloc := encChain_locate L1p h p x xcs L2 (some c) ((h c).next) hrestc
              (fun q hq => by injection hq with hq; subst hq; rfl)
            have hih := ih p (some c) ((h c).next) L2 hrestc
              (fun i hi => hmem i (by
                rcases List.mem_append.mp hi with h1 | h1 <;> simp [idsOfF, h1]))
              (fun hcx => hcmem.1 (Option.some.inj hcx))
            by_cases hcp : some c = (h x).previous
            · have hnext : (h c).next = some x := hpvfact c hcp.symm
              rw [if_pos hnext] at hih
              rw [hag.2.2.2.2.1 hcp]
              exact hih
            · have hne2 : (h c).next ≠ some x := by
                rcases hloc.2.2.2.2.2 with ⟨hpvx, _, _⟩ | ⟨d, dcs, L1pp, hL1, hcurd, _⟩
                · exact absurd hpvx.symm hcp
                · rw [hcurd]
                  intro hdx
                  have hdxe : d = x := Option.some.inj hdx
                  subst hdxe
                  exact (hmem d (by simp [idsOfF, hL1])).1 rfl
              rw [if_neg hne2] at hih
              rw [hag.2.2.2.1 hcp]
              exact hih

/-- `removeFromTree` on an attached node, factored through the surgery
step. -/
theorem removeFromTree_eq (fuel : Nat) (h : Heap) (x p : Nat)
    (hparx : (h x).parent = some p) :
    removeFromTree fuel h x =
      hupd (if (h x).t = NodeType.DIRNODE then blankRec fuel (unlinkStep h x p) x
            else unlinkStep h x p) x
        (fun nd =>
          { nd with parent := none, previous := none, next := none, path := "" }) := by
  rcases hpv : (h x).previous with _ | pv <;> rcases hnx : (h x).next with _ | nx <;>
    simp only [removeFromTree, unlinkStep, hparx, hpv, hnx]

/-- The surgery step never touches scalar fields or parent links. -/
theorem unlinkStep_keeps (h : Heap) (x p i : Nat) :
    (unlinkStep h x p i).t = (h i).t ∧ (unlinkStep h x p i).name = (h i).name ∧
    (unlinkStep h x p i).path = (h i).path ∧
    (unlinkStep h x p i).content = (h i).content ∧
    (unlinkStep h x p i).sizes = (h i).sizes ∧
    (unlinkStep h x p i).processedPath = (h i).processedPath ∧
    (unlinkStep h x p i).processedRelPath = (h i).processedRelPath ∧
    (unlinkStep h x p i).parent = (h i).parent := by
  rcases hpv : (h x).previous with _ | pv <;> rcases hnx : (h x).next with _ | nx <;>
    simp only [unlinkStep, hpv, hnx, hupd] <;> split_ifs <;>
    exact ⟨rfl, rfl, rfl, rfl, rfl, rfl, rfl, rfl⟩

/-- Away from the parent and the two neighbours the surgery step is
the identity. -/
theorem unlinkStep_untouched (h : Heap) (x p i : Nat) (hip : i ≠ p)
    (hipv : some i ≠ (h x).previous) (hinx : some i ≠ (h x).next) :
    unlinkStep h x p i = h i := by
  rcases hpv : (h x).previous with _ | pv <;> rcases hnx : (h x).next with _ | nx
  · simp [unlinkStep, hpv, hnx, hupd, hip]
  · rw [hnx] at hinx
    have hi : i ≠ nx := fun hh => hinx (by rw [hh])
    simp [unlinkStep, hpv, hnx, hupd, hip, hi]
  · rw [hpv] at hipv
    have hi : i ≠ pv := fun hh => hipv (by rw [hh])
    simp [unlinkStep, hpv, hnx, hupd, hip, hi]
  · rw [hpv] at hipv
    rw [hnx] at hinx
    have hi : i ≠ pv := fun hh => hipv (by rw [hh])
    have hi2 : i ≠ nx := fun hh => hinx (by rw [hh])
    simp [unlinkStep, hpv, hnx, hupd, hip, hi, hi2]

/-- Only the parent's `firstChild` can change in the surgery step. -/
theorem unlinkStep_fc_other (h : Heap) (x p i : Nat) (hip : i ≠ p) :
    (unlinkStep h x p i).firstChild = (h i).firstChild := by
  rcases hpv : (h x).previous with _ | pv <;> rcases hnx : (h x).next with _ | nx <;>
    simp only [unlinkStep, hpv, hnx, hupd] <;> split_ifs <;> simp_all

/-- Only the removed node's previous sibling gets a new `next`. -/
theorem unlinkStep_next_other (h : Heap) (x p i : Nat)
    (hipv : some i ≠ (h x).previous) :
    (unlinkStep h x p i).next = (h i).next := by
  rcases hpv : (h x).previous with _ | pv <;> rcases hnx : (h x).next with _ | nx
  · simp only [unlinkStep, hpv, hnx, hupd]
    split_ifs <;> simp_all
  · simp only [unlinkStep, hpv, hnx, hupd]
    split_ifs <;> simp_all
  · rw [hpv] at hipv
    have hi : i ≠ pv := fun hh => hipv (by rw [hh])
    simp only [unlinkStep, hpv, hnx, hupd]
    split_ifs <;> simp_all
  · rw [hpv] at hipv
    have hi : i ≠ pv := fun hh => hipv (by rw [hh])
    simp only [unlinkStep, hpv, hnx, hupd]
    split_ifs <;> simp_all

/-- Only the removed node's next sibling gets a new `previous`. -/
theorem unlinkStep_prev_other (h : Heap) (x p i : Nat)
    (hinx : some i ≠ (h x).next) :
    (unlinkStep h x p i).previous = (h i).previous := by
  rcases hpv : (h x).previous with _ | pv <;> rcases hnx : (h x).next with _ | nx
  · simp only [unlinkStep, hpv, hnx, hupd]
    split_ifs <;> simp_all
  · rw [hnx] at hinx
    have hi : i ≠ nx := fun hh => hinx (by rw [hh])
    simp only [unlinkStep, hpv, hnx, hupd]
    split_ifs <;> simp_all
  · simp only [unlinkStep, hpv, hnx, hupd]
    split_ifs <;> simp_all
  · rw [hnx] at hinx
    have hi : i ≠ nx := fun hh => hinx (by rw [hh])
    simp only [unlinkStep, hpv, hnx, hupd]
    split_ifs <;> simp_all

/-- The previous sibling's `next` is redirected to the removed node's
`next`; its other links survive. -/
theorem unlinkStep_at_pv (h : Heap) (x p pv : Nat) (hpv : (h x).previous = some pv)
    (hpvnx : some pv ≠ (h x).next) :
    (unlinkStep h x p pv).next = (h x).next ∧
    (unlinkStep h x p pv).previous = (h pv).previous ∧
    (unlinkStep h x p pv).firstChild = (h pv).firstChild := by
  rcases hnx : (h x).next with _ | nx
  · simp [unlinkStep, hpv, hnx, hupd]
  · rw [hnx] at hpvnx
    have hne : pv ≠ nx := fun hh => hpvnx (by rw [hh])
    simp [unlinkStep, hpv, hnx, hupd, hne]

/-- The next sibling's `previous` is redirected to the removed node's
`previous`; its other links survive. -/
theorem unlinkStep_at_nx (h : Heap) (x p nx : Nat) (hnx : (h x).next = some nx)
    (hnxp : nx ≠ p) (hnxpv : some nx ≠ (h x).previous) :
    (unlinkStep h x p nx).previous = (h x).previous ∧
    (unlinkStep h x p nx).next = (h nx).next ∧
    (unlinkStep h x p nx).firstChild = (h nx).firstChild := by
  rcases hpv : (h x).previous with _ | pv
  · simp [unlinkStep, hpv, hnx, hupd, hnxp]
  · rw [hpv] at hnxpv
    have hne : nx ≠ pv := fun hh => hnxpv (by rw [hh])
    simp [unlinkStep, hpv, hnx, hupd, hne]

/-- The parent's sibling links survive; its first child is replaced
exactly when the removed node was the first child. -/
theorem unlinkStep_at_p (h : Heap) (x p : Nat)
    (hppv : some p ≠ (h x).previous) (hpnx : some p ≠ (h x).next) :
    (unlinkStep h x p p).next = (h p).next ∧
    (unlinkStep h x p p).previous = (h p).previous ∧
    ((h x).previous = none → (unlinkStep h x p p).firstChild = (h x).next) ∧
    (∀ q, (h x).previous = some q →
      (unlinkStep h x p p).firstChild = (h p).firstChild) := by
  rcases hpv : (h x).previous with _ | pv <;> rcases hnx : (h x).next with _ | nx
  · simp [unlinkStep, hpv, hnx, hupd]
  · rw [hnx] at hpnx
    have hne : p ≠ nx := fun hh => hpnx (by rw [hh])
    simp [unlinkStep, hpv, hnx, hupd, hne]
  · rw [hpv] at hppv
    have hne : p ≠ pv := fun hh => hppv (by rw [hh])
    simp [unlinkStep, hpv, hnx, hupd, hne]
  · rw [hpv] at hppv
    rw [hnx] at hpnx
    have hne : p ≠ pv := fun hh => hppv (by rw [hh])
    have hne2 : p ≠ nx := fun hh => hpnx (by rw [hh])
    simp [unlinkStep, hpv, hnx, hupd, hne, hne2]

/-- Blanking touches only `path`. -/
theorem blankOn_links (s : List Nat) (h : Heap) (i : Nat) :
    (blankOn s h i).parent = (h i).parent ∧ (blankOn s h i).previous = (h i).previous ∧
    (blankOn s h i).next = (h i).next ∧ (blankOn s h i).firstChild = (h i).firstChild ∧
    (blankOn s h i).t = (h i).t ∧ (blankOn s h i).name = (h i).name ∧
    (blankOn s h i).content = (h i).content ∧ (blankOn s h i).sizes = (h i).sizes ∧
    (blankOn s h i).processedPath = (h i).processedPath ∧
    (blankOn s h i).processedRelPath = (h i).processedRelPath := by
  by_cases hm : i ∈ s
  · rw [blankOn_mem s h i hm]
    exact ⟨rfl, rfl, rfl, rfl, rfl, rfl, rfl, rfl, rfl, rfl⟩
  · rw [blankOn_not_mem s h i hm]
    exact ⟨rfl, rfl, rfl, rfl, rfl, rfl, rfl, rfl, rfl, rfl⟩

/-- The last segment of a joined path is recoverable: equal joins with
equal segment prefixes have equal last segments. -/
theorem joinSlash_last_inj (segs : List String) (u v : String)
    (h : joinSlash (segs ++ [u]) = joinSlash (segs ++ [v])) : u = v := by
  cases segs with
  | nil => exact h
  | cons s rest =>
      rw [joinSlash_append_single (s :: rest) u (by simp),
        joinSlash_append_single (s :: rest) v (by simp)] at h
      have hd := congrArg String.data h
      simp only [String.data_append] at hd
      exact String.ext (by simpa [List.append_assoc] using hd)

/-- Equal basenames built around digests force equal digests. -/
theorem digest_segment_inj (A E h1 h2 : String)
    (h : A ++ h1 ++ E = A ++ h2 ++ E) : h1 = h2 := by
  have hd := congrArg String.data h
  simp only [String.data_append] at hd
  exact String.ext (List.append_cancel_left (List.append_cancel_right hd))

/-- The data of a joined path ends in the data of its last segment. -/
theorem joinSlash_last_data (segs : List String) (u : String) :
    ∃ a, (joinSlash (segs ++ [u])).data = a ++ u.data := by
  cases segs with
  | nil => exact ⟨[], rfl⟩
  | cons s rest =>
      rw [joinSlash_append_single (s :: rest) u (by simp)]
      exact ⟨(joinSlash (s :: rest)).data ++ ("/").data, by simp [String.data_append]⟩

/-- C4: content-addressed publishing.  (1) A successful `process`
(root skipped) rewrites every node of the forest through the visitor,
preserving the shape.  (2) Every plain file node's output-relative path
is its pre-publish relative path with the basename rewritten to
`<name-without-ext>-<hexdigest><ext>` — in particular the digest of the
content bytes appears as a substring of the output name.  (3) Every
image node's output path is a directory named by the digest of the
original bytes, replacing the node's name in the mirrored path, with
one `<width><ext>` file per size variant inside it (the original-width
variant holding the original bytes), and every variant materialized.
(4) Identical content bytes yield identical hash substrings in the
output names.  (5) Contents with different digests yield different
output names, for files and for images (with md5 modelled as the
injective hasher collaborator, different content yields different
digests). -/
theorem c4_content_addressed_publishing :
    (∀ (env : PubEnv) (outDirPath : String) (n n2 : ATree) (out2 : OutFs),
        process env outDirPath false n = some (n2, out2) →
        ProcForest env n.path outDirPath n.children n2.children) ∧
    (∀ (env : PubEnv) (rootPath outDirPath : String) (segs : List String) (d : NodeData)
        (content : List Nat) (d2 : NodeData),
        d.t = NodeType.FILENODE → simpleSeg d.name →
        d.path = rootPath ++ "/" ++ joinSlash (segs ++ [d.name]) →
        contentOf env.fs d = some content →
        processDataF env rootPath outDirPath d = some d2 →
        d2.processedRelPath =
          joinSlash (segs ++ [trimSuf d.name (filepathExt d.name) ++ "-" ++
            env.digest content ++ filepathExt d.name]) ∧
        d2.processedPath = pathJoin [outDirPath, d2.processedRelPath] ∧
        hasSubstr (env.digest content).data d2.processedRelPath.data = true) ∧
    (∀ (env : PubEnv) (rootPath outDirPath : String) (out : OutFs) (segs : List String)
        (d : NodeData) (content : List Nat) (p : NodeData × OutFs),
        d.t = NodeType.IMGNODE → (∀ s ∈ segs, simpleSeg s) → simpleSeg d.name →
        simpleSeg (env.digest content) →
        d.path = rootPath ++ "/" ++ joinSlash (segs ++ [d.name]) →
        contentOf env.fs d = some content →
        processData env rootPath outDirPath out d = some p →
        p.1.processedRelPath = joinSlash (segs ++ [env.digest content]) ∧
        p.1.processedPath = pathJoin [outDirPath, p.1.processedRelPath] ∧
        p.1.sizes = d.sizes.map (fun sz => { sz with processed := true }) ∧
        (∀ sz ∈ d.sizes, sz.processed = false →
          ∃ bs, (pathJoin [p.1.processedPath, itoa sz.width ++ filepathExt d.name], bs)
              ∈ p.2.files ∧ (sz.original = true → bs = content))) ∧
    (∀ (env : PubEnv) (segs : List String) (nm : String) (c1 c2 : List Nat),
        env.digest c1 = env.digest c2 →
        joinSlash (segs ++ [trimSuf nm (filepathExt nm) ++ "-" ++ env.digest c1 ++
          filepathExt nm]) =
        joinSlash (segs ++ [trimSuf nm (filepathExt nm) ++ "-" ++ env.digest c2 ++
          filepathExt nm])) ∧
    (∀ (env : PubEnv) (segs : List String) (nm : String) (c1 c2 : List Nat),
        env.digest c1 ≠ env.digest c2 →
        joinSlash (segs ++ [trimSuf nm (filepathExt nm) ++ "-" ++ env.digest c1 ++
          filepathExt nm]) ≠
        joinSlash (segs ++ [trimSuf nm (filepathExt nm) ++ "-" ++ env.digest c2 ++
          filepathExt nm]) ∧
        joinSlash (segs ++ [env.digest c1]) ≠ joinSlash (segs ++ [env.digest c2])) := by
  refine ⟨process_shape, ?_, ?_, ?_, ?_⟩
  · intro env rootPath outDirPath segs d content d2 ht hname hpath hc hdf
    rw [processDataF] at hdf
    rcases Option.map_eq_some'.1 hdf with ⟨p, hp, hfst⟩
    rcases processData_file_spec env rootPath outDirPath ⟨[], []⟩ segs d content p ht hname
      hpath hc hp with ⟨h1, h2, _, _, _⟩
    subst hfst
    refine ⟨h1, h2, ?_⟩
    rcases joinSlash_last_data segs (trimSuf d.name (filepathExt d.name) ++ "-" ++
      env.digest content ++ filepathExt d.name) with ⟨a, ha⟩
    have hform : p.1.processedRelPath.data =
        (a ++ (trimSuf d.name (filepathExt d.name) ++ "-").data) ++
          ((env.digest content).data ++ (filepathExt d.name).data) := by
      rw [h1, ha]
      simp [String.data_append, List.append_assoc]
    rw [hform]
    exact hasSubstr_embed _ _ _
  · intro env rootPath outDirPath out segs d content p ht hsegs hname hhash hpath hc hp
    rcases processData_img_spec env rootPath outDirPath out segs d content p ht hsegs hname
      hhash hpath hc hp with ⟨h1, h2, _, h4, h5, _⟩
    exact ⟨h1, h2, h4, h5⟩
  · intro env segs nm c1 c2 he
    rw [he]
  · intro env segs nm c1 c2 hne
    constructor
    · intro he
      exact hne (digest_segment_inj (trimSuf nm (filepathExt nm) ++ "-") (filepathExt nm)
        _ _ (joinSlash_last_inj segs _ _ he))
    · intro he
      exact hne (joinSlash_last_inj segs _ _ he)

/-- Witness for C4: a one-file tree published into `out`, a file node
and an image node pushed through the visitor, and the digest conjuncts
at the concrete contents `[1]` and `[2]`. -/
theorem c4_content_addressed_publishing_witness :
    ProcForest pubEnv0 (tree0.path) ("out") (tree0.children)
      (ATree.mk ⟨NodeType.DIRNODE, "assets", "r", none, [], "", ""⟩ [fileNode0p]).children ∧
    (fileNode0p.data.processedRelPath =
        joinSlash ([] ++ [trimSuf ("f.txt") (filepathExt ("f.txt")) ++ "-" ++
          pubEnv0.digest [1] ++ filepathExt ("f.txt")]) ∧
      fileNode0p.data.processedPath = pathJoin [("out"), fileNode0p.data.processedRelPath] ∧
      hasSubstr (pubEnv0.digest [1]).data fileNode0p.data.processedRelPath.data = true) ∧
    (∀ sz ∈ imgData0.sizes, sz.processed = false →
      ∃ bs, (pathJoin [("out/d/bbbb"), itoa sz.width ++ filepathExt ("i.png")], bs)
          ∈ [(("out/d/bbbb/100.png" : String), ([2] : List Nat))] ∧
        (sz.original = true → bs = [2])) ∧
    joinSlash ([("d" : String)] ++ [pubEnv0.digest [2]]) ≠
      joinSlash ([("d" : String)] ++ [pubEnv0.digest [1]]) := by
  refine ⟨?_, ?_, ?_, ?_⟩
  · exact c4_content_addressed_publishing.1 pubEnv0 ("out")
      tree0 (ATree.mk ⟨NodeType.DIRNODE, "assets", "r", none, [], "", ""⟩ [fileNode0p])
      ⟨[], [(("out/f-aaaa.txt" : String), ([1] : List Nat))]⟩ (by rfl)
  · exact c4_content_addressed_publishing.2.1 pubEnv0 ("r") ("out") [] fileNode0.data
      [1] fileNode0p.data (by rfl) (by decide) (by rfl) (by rfl) (by rfl)
  · have h := c4_content_addressed_publishing.2.2.1 pubEnv0 ("r") ("out") ⟨[], []⟩
      [("d" : String)] imgData0 [2]
      (imgData0p, ⟨["out/d/bbbb"], [(("out/d/bbbb/100.png" : String), ([2] : List Nat))]⟩)
      (by rfl) (by decide) (by decide) (by decide) (by rfl) (by rfl) (by rfl)
    exact h.2.2.2
  · exact (c4_content_addressed_publishing.2.2.2.2 pubEnv0 [("d" : String)] ("i.png")
      [2] [1] (by decide)).2

/-- C6: `removeFromTree` on an attached node `x` (a member of its parent
`p`'s encoded child chain, all node identifiers distinct) unlinks it,
restoring doubly-linked integrity among the remaining siblings: the
parent's child chain afterwards encodes the same forest with `x`'s
subtree spliced out.  If `x` is a directory, every node in its subtree
gets a blank `path` while the parent/child/sibling links inside the
detached subtree are left unchanged; `x`'s own `parent`, `previous`,
`next` and `path` are cleared (its `firstChild` survives); no scalar
field of any node changes; no `path` outside `x`'s subtree changes; and
every node other than the parent, the two neighbours, `x` and its
subtree is untouched entirely. -/
theorem c6_removeFromTree_frame (h : Heap) (p x fuel : Nat) (L1 xcs L2 : List ITree)
    (hchain : EncChain h p none ((h p).firstChild) (L1 ++ ITree.mk x xcs :: L2))
    (hnodup : (p :: idsOfF (L1 ++ ITree.mk x xcs :: L2)).Nodup)
    (hfuel : (idsOfF xcs).length ≤ fuel) :
    EncChain (removeFromTree fuel h x) p none
      ((removeFromTree fuel h x p).firstChild) (L1 ++ L2) ∧
    ((h x).t = NodeType.DIRNODE →
      ∀ i ∈ x :: idsOfF xcs, (removeFromTree fuel h x i).path = "") ∧
    (∀ i ∈ idsOfF xcs,
      (removeFromTree fuel h x i).parent = (h i).parent ∧
      (removeFromTree fuel h x i).firstChild = (h i).firstChild ∧
      (removeFromTree fuel h x i).next = (h i).next ∧
      (removeFromTree fuel h x i).previous = (h i).previous) ∧
    (removeFromTree fuel h x x).firstChild = (h x).firstChild ∧
    ((removeFromTree fuel h x x).parent = none ∧
      (removeFromTree fuel h x x).previous = none ∧
      (removeFromTree fuel h x x).next = none ∧
      (removeFromTree fuel h x x).path = "") ∧
    (∀ i, (removeFromTree fuel h x i).t = (h i).t ∧
      (removeFromTree fuel h x i).name = (h i).name ∧
      (removeFromTree fuel h x i).content = (h i).content ∧
      (removeFromTree fuel h x i).sizes = (h i).sizes ∧
      (removeFromTree fuel h x i).processedPath = (h i).processedPath ∧
      (removeFromTree fuel h x i).processedRelPath = (h i).processedRelPath) ∧
    (∀ i, i ≠ x → i ∉ idsOfF xcs →
      (removeFromTree fuel h x i).path = (h i).path) ∧
    (∀ i, i ≠ p → i ≠ x → some i ≠ (h x).previous → some i ≠ (h x).next →
      i ∉ idsOfF xcs → removeFromTree fuel h x i = h i) := by
  have hids : idsOfF (L1 ++ ITree.mk x xcs :: L2) =
      idsOfF L1 ++ (x :: (idsOfF xcs ++ idsOfF L2)) := by
    rw [idsOfF_append, idsOfF]
  rw [hids] at hnodup
  obtain ⟨hpnot, hnd⟩ := List.nodup_cons.mp hnodup
  simp only [List.mem_append, List.mem_cons, not_or] at hpnot
  obtain ⟨hpA, hpx, hpB, hpC⟩ := hpnot
  rw [List.nodup_append] at hnd
  obtain ⟨hndA, hndxBC, hdisjA⟩ := hnd
  obtain ⟨hxnot, hndBC⟩ := List.nodup_cons.mp hndxBC
  simp only [List.mem_append, not_or] at hxnot
  obtain ⟨hxB, hxC⟩ := hxnot
  rw [List.nodup_append] at hndBC
  obtain ⟨hndB, hndC, hdisjBC⟩ := hndBC
  have F2 : ∀ i ∈ idsOfF L1, i ≠ x ∧ i ≠ p := by
    intro i hi
    refine ⟨fun hix => hdisjA hi ?_, fun hip => hpA (hip ▸ hi)⟩
    rw [hix]
    exact List.mem_cons_self _ _
  have F3 : ∀ i ∈ idsOfF L2, i ≠ x ∧ i ≠ p :=
    fun i hi => ⟨fun hix => hxC (hix ▸ hi), fun hip => hpC (hip ▸ hi)⟩
  have F4 : ∀ i ∈ idsOfF xcs, i ≠ x ∧ i ≠ p ∧ i ∉ idsOfF L1 ∧ i ∉ idsOfF L2 := by
    intro i hi
    refine ⟨fun hix => hxB (hix ▸ hi), fun hip => hpB (hip ▸ hi),
      fun hiA => hdisjA hiA ?_, fun hiC => hdisjBC hi hiC⟩
    exact List.mem_cons_of_mem _ (List.mem_append_left _ hi)
  obtain ⟨hparx, hleafx, hkidsx, hpvloc, hnxloc, hheads⟩ :=
    encChain_locate L1 h p x xcs L2 none ((h p).firstChild) hchain
      (fun q hq => Option.noConfusion hq)
  have hpvfact : ∀ i, (h x).previous = some i → (h i).next = some x :=
    fun i hi => (hpvloc i hi).1
  have hpvmem : ∀ i, (h x).previous = some i → i ∈ idsOfF L1 :=
    fun i hi => ((hpvloc i hi).2).resolve_right (fun hc => Option.noConfusion hc)
  have hnxfact : ∀ i, (h x).next = some i → (h i).previous = some x :=
    fun i hi => (hnxloc i hi).1
  have hnxmem : ∀ i, (h x).next = some i → i ∈ idsOfF L2 :=
    fun i hi => (hnxloc i hi).2
  have hipv : ∀ i, i ∉ idsOfF L1 → some i ≠ (h x).previous := by
    intro i hnotA
    cases hq : (h x).previous with
    | none => simp
    | some q =>
        intro hcon
        apply hnotA
        rw [Option.some.inj hcon]
        exact hpvmem q hq
  have hinx : ∀ i, i ∉ idsOfF L2 → some i ≠ (h x).next := by
    intro i hnotC
    cases hq : (h x).next with
    | none => simp
    | some q =>
        intro hcon
        apply hnotC
        rw [Option.some.inj hcon]
        exact hnxmem q hq
  have hxp : x ≠ p := fun hh => hpx hh.symm
  have hxpv : some x ≠ (h x).previous := hipv x (fun hc => (F2 x hc).1 rfl)
  have hxnx : some x ≠ (h x).next := hinx x (fun hc => (F3 x hc).1 rfl)
  have hppv : some p ≠ (h x).previous := hipv p hpA
  have hpnx : some p ≠ (h x).next := hinx p hpC
  have hux : unlinkStep h x p x = h x := unlinkStep_untouched h x p x hxp hxpv hxnx
  have husub : ∀ i ∈ idsOfF xcs, unlinkStep h x p i = h i := by
    intro i hi
    obtain ⟨hix, hip, hiA, hiC⟩ := F4 i hi
    exact unlinkStep_untouched h x p i hip (hipv i hiA) (hinx i hiC)
  obtain ⟨S, hSdef⟩ : ∃ S : List Nat,
      S = (if (h x).t = NodeType.DIRNODE then x :: idsOfF xcs else []) := ⟨_, rfl⟩
  have hS : removeFromTree fuel h x =
      hupd (blankOn S (unlinkStep h x p)) x
        (fun nd =>
          { nd with parent := none, previous := none, next := none, path := "" }) := by
    rw [removeFromTree_eq fuel h x p hparx, hSdef]
    by_cases hdir : (h x).t = NodeType.DIRNODE
    · rw [if_pos hdir, if_pos hdir]
      have henc : EncChain (blankOn [x] (unlinkStep h x p)) x none
          ((h x).firstChild) xcs := by
        refine encChain_congr hkidsx _ (fun i hi => ?_)
        have hbn : blankOn [x] (unlinkStep h x p) i = unlinkStep h x p i :=
          blankOn_not_mem _ _ _ (by simp [(F4 i hi).1])
        rw [hbn, husub i hi]
        exact ⟨rfl, rfl, rfl, rfl, rfl⟩
      have hb : hupd (unlinkStep h x p) x (fun nd => { nd with path := "" }) =
          blankOn [x] (unlinkStep h x p) := hupd_blank_eq _ _
      have hbx : (blankOn [x] (unlinkStep h x p) x).firstChild = (h x).firstChild := by
        rw [blankOn_mem [x] _ x (by simp)]
        show (unlinkStep h x p x).firstChild = _
        rw [hux]
      have hblank : blankRec fuel (unlinkStep h x p) x =
          blankOn (x :: idsOfF xcs) (unlinkStep h x p) := by
        calc blankRec fuel (unlinkStep h x p) x
            = blankChain fuel (blankOn [x] (unlinkStep h x p))
                ((blankOn [x] (unlinkStep h x p) x).firstChild) := by
              simp only [blankRec]
              rw [hb]
          _ = blankChain fuel (blankOn [x] (unlinkStep h x p)) ((h x).firstChild) := by
              rw [hbx]
          _ = blankOn (idsOfF xcs) (blankOn [x] (unlinkStep h x p)) :=
              blankChain_spec (idsOfF xcs).length xcs fuel _ x none ((h x).firstChild)
                henc le_rfl hfuel
          _ = blankOn ([x] ++ idsOfF xcs) (unlinkStep h x p) := blankOn_blankOn _ _ _
          _ = blankOn (x :: idsOfF xcs) (unlinkStep h x p) := rfl
      rw [hblank]
    · rw [if_neg hdir, if_neg hdir]
      have hblank : blankOn ([] : List Nat) (unlinkStep h x p) = unlinkStep h x p := by
        funext j
        exact blankOn_not_mem _ _ _ (List.not_mem_nil _)
      rw [hblank]
  have hSother : ∀ i, i ≠ x →
      removeFromTree fuel h x i = blankOn S (unlinkStep h x p) i := by
    intro i hi
    rw [hS]
    exact hupd_other _ _ _ _ hi
  have hSx : removeFromTree fuel h x x =
      { blankOn S (unlinkStep h x p) x with
          parent := none, previous := none, next := none, path := "" } := by
    rw [hS]
    exact hupd_same _ _ _
  have hSnot : ∀ i, i ≠ x → i ∉ idsOfF xcs → i ∉ S := by
    intro i hi1 hi2 hmemS
    rw [hSdef] at hmemS
    by_cases hdir : (h x).t = NodeType.DIRNODE
    · rw [if_pos hdir] at hmemS
      rcases List.mem_cons.mp hmemS with hh | hh
      · exact hi1 hh
      · exact hi2 hh
    · rw [if_neg hdir] at hmemS
      exact absurd hmemS (List.not_mem_nil _)
  have hagree : ∀ i, i ≠ x → i ≠ p →
      ((removeFromTree fuel h x i).parent = (h i).parent ∧
       (removeFromTree fuel h x i).t = (h i).t ∧
       (removeFromTree fuel h x i).firstChild = (h i).firstChild ∧
       (some i ≠ (h x).previous → (removeFromTree fuel h x i).next = (h i).next) ∧
       (some i = (h x).previous → (removeFromTree fuel h x i).next = (h x).next) ∧
       (some i ≠ (h x).next →
         (removeFromTree fuel h x i).previous = (h i).previous) ∧
       (some i = (h x).next →
         (removeFromTree fuel h x i).previous = (h x).previous)) := by
    intro i hix hip
    have h1 := hSother i hix
    have hbl := blankOn_links S (unlinkStep h x p) i
    refine ⟨?_, ?_, ?_, ?_, ?_, ?_, ?_⟩
    · rw [h1, hbl.1, (unlinkStep_keeps h x p i).2.2.2.2.2.2.2]
    · rw [h1, hbl.2.2.2.2.1, (unlinkStep_keeps h x p i).1]
    · rw [h1, hbl.2.2.2.1, unlinkStep_fc_other h x p i hip]
    · intro hh
      rw [h1, hbl.2.2.1, unlinkStep_next_other h x p i hh]
    · intro hh
      have himem : i ∈ idsOfF L1 := hpvmem i hh.symm
      have hinotC : i ∉ idsOfF L2 := fun hiC => hdisjA himem
        (List.mem_cons_of_mem _ (List.mem_append_right _ hiC))
      rw [h1, hbl.2.2.1]
      exact (unlinkStep_at_pv h x p i hh.symm (hinx i hinotC)).1
    · intro hh
      rw [h1, hbl.2.1, unlinkStep_prev_other h x p i hh]
    · intro hh
      have himem : i ∈ idsOfF L2 := hnxmem i hh.symm
      have hinotA : i ∉ idsOfF L1 := fun hiA => hdisjA hiA
        (List.mem_cons_of_mem _ (List.mem_append_right _ himem))
      rw [h1, hbl.2.1]
      exact (unlinkStep_at_nx h x p i hh.symm hip (hipv i hinotA)).1
  have hsplice := encChain_splice x p h (removeFromTree fuel h x) xcs hagree hpvfact
    hnxfact L1 p none ((h p).firstChild) L2 hchain
    (fun i hi => by
      rcases List.mem_append.mp hi with h1 | h1
      · exact F2 i h1
      · exact F3 i h1)
    (by simp)
  have hpfc : (removeFromTree fuel h x p).firstChild =
      (if (h p).firstChild = some x then (h x).next else (h p).firstChild) := by
    rw [hSother p hpx, (blankOn_links S (unlinkStep h x p) p).2.2.2.1]
    rcases hheads with ⟨hpveq, hcurx, _⟩ | ⟨c, ccs, L1p, hL1, hcur, q, hq⟩
    · rw [if_pos hcurx]
      exact (unlinkStep_at_p h x p hppv hpnx).2.2.1 hpveq
    · have hcx : c ≠ x := (F2 c (by simp [hL1, idsOfF])).1
      rw [hcur, if_neg (fun hh => hcx (Option.some.inj hh))]
      exact ((unlinkStep_at_p h x p hppv hpnx).2.2.2 q hq).trans hcur
  refine ⟨?_, ?_, ?_, ?_, ⟨?_, ?_, ?_, ?_⟩, ?_, ?_, ?_⟩
  · rw [hpfc]
    exact hsplice
  · intro hdir i hi
    rcases List.mem_cons.mp hi with hix | hixcs
    · subst hix
      rw [hSx]
    · have hix : i ≠ x := (F4 i hixcs).1
      rw [hSother i hix, blankOn_mem S (unlinkStep h x p) i
        (by rw [hSdef, if_pos hdir]; exact List.mem_cons_of_mem _ hixcs)]
  · intro i hi
    have hix := (F4 i hi).1
    have hbl := blankOn_links S (unlinkStep h x p) i
    refine ⟨?_, ?_, ?_, ?_⟩
    · rw [hSother i hix, hbl.1, husub i hi]
    · rw [hSother i hix, hbl.2.2.2.1, husub i hi]
    · rw [hSother i hix, hbl.2.2.1, husub i hi]
    · rw [hSother i hix, hbl.2.1, husub i hi]
  · rw [hSx]
    show (blankOn S (unlinkStep h x p) x).firstChild = (h x).firstChild
    rw [(blankOn_links S (unlinkStep h x p) x).2.2.2.1, hux]
  · rw [hSx]
  · rw [hSx]
  · rw [hSx]
  · rw [hSx]
  · intro i
    by_cases hix : i = x
    · rw [hix]
      have hbl := blankOn_links S (unlinkStep h x p) x
      have hk := unlinkStep_keeps h x p x
      rw [hSx]
      exact ⟨(hbl.2.2.2.2.1).trans hk.1, (hbl.2.2.2.2.2.1).trans hk.2.1,
        (hbl.2.2.2.2.2.2.1).trans hk.2.2.2.1,
        (hbl.2.2.2.2.2.2.2.1).trans hk.2.2.2.2.1,
        (hbl.2.2.2.2.2.2.2.2.1).trans hk.2.2.2.2.2.1,
        (hbl.2.2.2.2.2.2.2.2.2).trans hk.2.2.2.2.2.2.1⟩
    · have hbl := blankOn_links S (unlinkStep h x p) i
      have hk := unlinkStep_keeps h x p i
      rw [hSother i hix]
      exact ⟨(hbl.2.2.2.2.1).trans hk.1, (hbl.2.2.2.2.2.1).trans hk.2.1,
        (hbl.2.2.2.2.2.2.1).trans hk.2.2.2.1,
        (hbl.2.2.2.2.2.2.2.1).trans hk.2.2.2.2.1,
        (hbl.2.2.2.2.2.2.2.2.1).trans hk.2.2.2.2.2.1,
        (hbl.2.2.2.2.2.2.2.2.2).trans hk.2.2.2.2.2.2.1⟩
  · intro i hix hnsub
    rw [hSother i hix, blankOn_not_mem S _ i (hSnot i hix hnsub),
      (unlinkStep_keeps h x p i).2.2.1]
  · intro i hip hix hipv2 hinx2 hnsub
    rw [hSother i hix, blankOn_not_mem S _ i (hSnot i hix hnsub),
      unlinkStep_untouched h x p i hip hipv2 hinx2]

/-- C6 witnessed on the concrete heap `heap0`: removing directory node
1 (subtree {3}) from parent 0's child chain [1, 2] leaves the chain
[2], clears node 1's links and path, blanks node 3's path, and keeps
node 2's scalar fields. -/
theorem c6_removeFromTree_frame_witness :
    (0 :: idsOfF ([] ++ ITree.mk 1 [ITree.mk 3 []] :: [ITree.mk 2 []])).Nodup ∧
    (idsOfF [ITree.mk 3 []]).length ≤ 1 ∧
    EncChain (removeFromTree 1 heap0 1) 0 none
      ((removeFromTree 1 heap0 1 0).firstChild) ([] ++ [ITree.mk 2 []]) ∧
    (removeFromTree 1 heap0 1 1).parent = none ∧
    (removeFromTree 1 heap0 1 1).path = "" ∧
    (removeFromTree 1 heap0 1 3).path = "" ∧
    (removeFromTree 1 heap0 1 2).name = "f" := by
  have hchain : EncChain heap0 0 none ((heap0 0).firstChild)
      ([] ++ ITree.mk 1 [ITree.mk 3 []] :: [ITree.mk 2 []]) :=
    EncChain.cons 1 [ITree.mk 3 []] [ITree.mk 2 []] rfl rfl
      (fun hne => absurd rfl hne)
      (EncChain.cons 3 [] [] rfl rfl (fun _ => rfl)
        (EncChain.nil heap0 3 none) (EncChain.nil heap0 1 (some 3)))
      (EncChain.cons 2 [] [] rfl rfl (fun _ => rfl)
        (EncChain.nil heap0 2 none) (EncChain.nil heap0 0 (some 2)))
  have hnodup :
      (0 :: idsOfF ([] ++ ITree.mk 1 [ITree.mk 3 []] :: [ITree.mk 2 []])).Nodup := by
    simp [idsOfF]
  have hfuel : (idsOfF [ITree.mk 3 []]).length ≤ 1 := by
    simp [idsOfF]
  have hc := c6_removeFromTree_frame heap0 0 1 1 [] [ITree.mk 3 []] [ITree.mk 2 []]
    hchain hnodup hfuel
  refine ⟨hnodup, hfuel, hc.1, hc.2.2.2.2.1.1, hc.2.2.2.2.1.2.2.2, ?_, ?_⟩
  · exact hc.2.1 rfl 3 (by simp [idsOfF])
  · exact (hc.2.2.2.2.2.1 2).2.1

end Egen

